import Mathlib

/-!
Shallow embedding of the ContextSubstrate (`ctx`) core in Lean 4, together with
proofs about its specification claims.

Modelling conventions, used throughout:

* Go strings and byte slices are modelled as `List Char` (`Str`).  All string
  operations of the source (prefix tests, filtering, splitting, lower-casing,
  substring search) are translated structurally.
* SHA-256 itself is the Go standard library, external to this repository; it is
  modelled as an abstract parameter `H : Data → Str` producing the 64-character
  hex digest.  Hypotheses on `H` (digest shape, absence of collisions among the
  finitely many blobs a theorem touches) replace the cryptographic facts the
  code relies on.
* JSON documents are modelled at the value level by the inductive `Json`, whose
  objects carry an explicit field order — exactly the information that survives
  in the serialized bytes.  Go's `encoding/json` marshalling of a struct emits
  the fields in declaration order and marshals `map` values with sorted keys;
  both are reproduced by the `...ToJson` functions below.  `json.Unmarshal` is
  modelled by the `jsonTo...` functions (unknown keys ignored, missing keys and
  JSON `null` leave the zero value, a type mismatch is an error).
* The blob object store `objects/<aa>/<rest>` is modelled as an association
  list from the 64-char hex (which determines the two path components
  bijectively) to the stored `Data`.  The `packs/` registry is the list of its
  file names.
* File-system reads (execution logs, drafts, JSONL record streams, replayed
  files) are modelled by passing the already-decoded values / the file map as
  arguments; the I/O layer adds nothing to the claims under study.
* Go `map` values are represented by association lists; a well-formedness
  hypothesis (`keysSortedStrict`, stating strictly sorted keys) expresses the
  canonical representation which every Go map has uniquely, wherever the claim
  needs to transport maps through serialization.
* Go `float64` scores of the optimizer are modelled exactly in fixed-point
  tenths over `Int` (0.5 → 5, 2.0 → 20, 0.1 → 1): every score the source can
  form is an integer multiple of one tenth, every comparison in the claims is
  far from any `float64` rounding boundary, and the budget claims are
  independent of the score values.
* `time.Time` fields are modelled by their RFC3339 string form, which is what
  the canonical JSON serialization stores.
-/

set_option linter.unusedVariables false

/-- Go strings / byte slices, modelled as lists of characters. -/
abbrev Str := List Char

/-- Shorthand for embedding a Lean string literal. -/
def ks (s : String) : Str := s.toList

/-- Characters accepted by Go `encoding/hex.DecodeString`: 0-9, a-f, A-F. -/
def isHexDigitChar (c : Char) : Bool :=
  (('0' ≤ c ∧ c ≤ '9') ∨ ('a' ≤ c ∧ c ≤ 'f') ∨ ('A' ≤ c ∧ c ≤ 'F') : Bool)

/-- Model of `hex.DecodeString` succeeding: even length, all hex digits. -/
def decodeHexOk (s : Str) : Bool :=
  s.length % 2 == 0 && s.all isHexDigitChar

/-- Bytewise `<=` on strings, as used by Go `sort.Strings`. -/
def strLe : Str → Str → Bool
  | [], _ => true
  | _ :: _, [] => false
  | a :: as, b :: bs => if a < b then true else if b < a then false else strLe as bs

/-- Bytewise `<` on strings. -/
def strLt : Str → Str → Bool
  | [], [] => false
  | [], _ :: _ => true
  | _ :: _, [] => false
  | a :: as, b :: bs => if a < b then true else if b < a then false else strLt as bs

/-- Insertion step of the sorting used to model Go's in-place slice sorts. -/
def insertBy {α : Type} (le : α → α → Bool) (a : α) : List α → List α
  | [] => [a]
  | b :: t => if le a b then a :: b :: t else b :: insertBy le a t

/-- Sorting used to model `sort.Strings` / `sort.Slice`; the claims under
study never depend on the order of fully tied elements, so an insertion sort
by the comparator models the (unstable) Go sorts faithfully. -/
def sortBy {α : Type} (le : α → α → Bool) : List α → List α
  | [] => []
  | a :: t => insertBy le a (sortBy le t)

/-- First-match association-list lookup (Go map reads, with unique keys). -/
def lookupKey {β : Type} (k : Str) : List (Str × β) → Option β
  | [] => none
  | (k', v) :: t => if k = k' then some v else lookupKey k t

/-- Go map assignment `m[k] = v`: replace the binding if present, else add. -/
def insertRep {β : Type} (k : Str) (v : β) : List (Str × β) → List (Str × β)
  | [] => [(k, v)]
  | (k', v') :: t => if k = k' then (k, v) :: t else (k', v') :: insertRep k v t

/- ------------------------------------------------------------------ -/
/- internal/store: hash & reference resolver (hash.go)                  -/
/- ------------------------------------------------------------------ -/

/-- The `"sha256:"` reference scheme constant of hash.go. -/
def hashScheme : Str := ks "sha256:"

/-- JSON value with explicit object field order, modelling serialized JSON
documents.  Numbers are modelled over `ℚ` (Go decodes into `float64`; every
number occurring in the claims is exactly representable). -/
inductive Json where
  | null
  | bool (b : Bool)
  | num (q : ℚ)
  | str (s : Str)
  | arr (items : List Json)
  | obj (fields : List (Str × Json))

/-- Blob contents.  `bytes s` is a raw text blob, `json j` a serialized JSON
document; the constructor records which of the two the program wrote, the
serialization itself being injective and order-preserving. -/
inductive Data where
  | bytes (s : Str)
  | json (j : Json)

mutual
/-- Structural boolean equality on `Json` (the nested induction prevents a
derived `DecidableEq`). -/
def Json.beq : Json → Json → Bool
  | .null, .null => true
  | .bool a, .bool b => a == b
  | .num a, .num b => a == b
  | .str a, .str b => a == b
  | .arr a, .arr b => Json.beqArr a b
  | .obj a, .obj b => Json.beqObj a b
  | _, _ => false

/-- Elementwise `Json.beq` on arrays. -/
def Json.beqArr : List Json → List Json → Bool
  | [], [] => true
  | a :: as, b :: bs => Json.beq a b && Json.beqArr as bs
  | _, _ => false

/-- Elementwise `Json.beq` on object field lists. -/
def Json.beqObj : List (Str × Json) → List (Str × Json) → Bool
  | [], [] => true
  | (k, v) :: as, (k', v') :: bs => k == k' && Json.beq v v' && Json.beqObj as bs
  | _, _ => false
end

mutual
/-- Recursive key sorting: models the `sortKeys`-then-remarshal composite of
`canonicalJSON` (and, on `map`-typed subtrees, plain `json.Marshal`, which
already sorts map keys at every depth). -/
def sortKeysJ : Json → Json
  | .null => .null
  | .bool b => .bool b
  | .num q => .num q
  | .str s => .str s
  | .arr l => .arr (sortKeysArr l)
  | .obj l => .obj (sortBy (fun p q => strLe p.1 q.1) (sortKeysObj l))

/-- `sortKeysJ` mapped over an array. -/
def sortKeysArr : List Json → List Json
  | [] => []
  | j :: t => sortKeysJ j :: sortKeysArr t

/-- `sortKeysJ` mapped over the values of an object. -/
def sortKeysObj : List (Str × Json) → List (Str × Json)
  | [] => []
  | (k, v) :: t => (k, sortKeysJ v) :: sortKeysObj t
end

/-- Strictly sorted key list: the canonical association-list representation of
a Go map (each map has exactly one such representation). -/
def keysSortedStrict {β : Type} : List (Str × β) → Bool
  | [] => true
  | [_] => true
  | p :: q :: t => strLt p.1 q.1 && keysSortedStrict (q :: t)

mutual
/-- A `Json` tree all of whose objects are in canonical (strictly key-sorted)
representation — the shape `json.Unmarshal` output has after remarshalling, and
the representation invariant for Go map values embedded in the model. -/
def Json.canonical : Json → Bool
  | .null => true
  | .bool _ => true
  | .num _ => true
  | .str _ => true
  | .arr l => Json.canonicalArr l
  | .obj l => keysSortedStrict l && Json.canonicalObj l

/-- `Json.canonical` on an array. -/
def Json.canonicalArr : List Json → Bool
  | [] => true
  | j :: t => Json.canonical j && Json.canonicalArr t

/-- `Json.canonical` on object values. -/
def Json.canonicalObj : List (Str × Json) → Bool
  | [] => true
  | (_, v) :: t => Json.canonical v && Json.canonicalObj t
end

/-- Error cases of `ParseHash` ("invalid hash reference: ..."). -/
inductive HashErr where
  | badScheme
  | badLength (n : Nat)
  | badHex
  deriving DecidableEq

/-- `HashContent` of blob.go / hash.go: SHA-256 digest formatted as a
`sha256:<hex>` reference.  `H` is the abstract digest function. -/
def HashContent (H : Data → Str) (data : Data) : Str :=
  hashScheme ++ H data

/-- `ParseHash`: split a `sha256:<hex>` reference into algorithm and hex part,
rejecting a missing scheme, a hex part whose length is not 64, and non-hex
characters. -/
def ParseHash (ref : Str) : Except HashErr (Str × Str) :=
  if hashScheme.isPrefixOf ref then
    let hexStr := ref.drop hashScheme.length
    if hexStr.length ≠ 64 then .error (.badLength hexStr.length)
    else if decodeHexOk hexStr then .ok (ks "sha256", hexStr)
    else .error .badHex
  else .error .badScheme

/-- `ValidateHash`: well-formedness of a reference. -/
def ValidateHash (ref : Str) : Bool :=
  (ParseHash ref).toBool

/-- Errors of `NormalizeHash`. -/
inductive NormErr where
  | invalidRef
  | invalidPlain
  deriving DecidableEq

/-- `NormalizeHash`: accept `sha256:<hex>` or plain `<hex>` (64 chars) and
return the `sha256:`-prefixed form.  The hex part is passed through verbatim;
the Go source never lower-cases. -/
def NormalizeHash (ref : Str) : Except NormErr Str :=
  if hashScheme.isPrefixOf ref then
    if ValidateHash ref then .ok ref else .error .invalidRef
  else
    let full := hashScheme ++ ref
    if ValidateHash full then .ok full else .error .invalidPlain

/-- `ShortHash`: first `n` characters of the hex part (clamped); an unparsable
reference is returned unchanged. -/
def ShortHash (ref : Str) (n : Nat) : Str :=
  match ParseHash ref with
  | .ok (_, hexStr) => hexStr.take n
  | .error _ => ref

/-- The `ctx://` URI scheme accepted by the resolver. -/
def ctxScheme : Str := ks "ctx://"

/-- Strip a leading `ctx://` if present. -/
def stripCtxScheme (ref : Str) : Str :=
  if ctxScheme.isPrefixOf ref then ref.drop ctxScheme.length else ref

/-- `isHexString` of hash.go: nonempty and only 0-9 / a-f / A-F. -/
def isHexString (s : Str) : Bool :=
  !s.isEmpty && s.all isHexDigitChar

/-- Errors of `ResolveHash`, one constructor per distinct Go error message. -/
inductive ResolveErr where
  | invalidHex
  | tooShort (n : Nat)
  | notFound
  | ambiguous (n : Nat)
  deriving DecidableEq

/-- `ResolveHash`: full hash, plain hex, short prefix or `ctx://` URI to a
full reference.  `packs` is the list of file names in the `packs/` registry
directory (each a 64-char hex written by `RegisterPack`).  The distinction the
source draws between a missing `packs/` directory and an empty one is below
the model (an absent directory is the empty list). -/
def ResolveHash (packs : List Str) (ref : Str) : Except ResolveErr Str :=
  let r := stripCtxScheme ref
  match NormalizeHash r with
  | .ok normalized => .ok normalized
  | .error _ =>
    if ¬ isHexString r then .error .invalidHex
    else if r.length < 4 then .error (.tooShort r.length)
    else
      let found := (packs.filter (fun name => r.isPrefixOf name)).map
        (fun name => hashScheme ++ name)
      match found with
      | [] => .error .notFound
      | [m] => .ok m
      | ms => .error (.ambiguous ms.length)

/- ------------------------------------------------------------------ -/
/- internal/store: blob store (blob.go)                                 -/
/- ------------------------------------------------------------------ -/

/-- The `objects/` directory: hex key (determining `objects/<aa>/<rest62>`
bijectively) to stored blob bytes. -/
abbrev ObjectStore := List (Str × Data)

/-- Errors of the blob store, one constructor per distinct Go error. -/
inductive BlobErr where
  | invalidRef (e : HashErr)
  | hexTooShort
  | notFound (short : Str)
  | integrity (expected actual : Str)
  deriving DecidableEq

/-- `blobPath`: the storage path of a reference, represented by its hex part
(`objects/<hex[0:2]>/<hex[2:]>` in the source, a bijective image). -/
def blobPath (ref : Str) : Except BlobErr Str :=
  match ParseHash ref with
  | .error e => .error (.invalidRef e)
  | .ok (_, hexStr) =>
    if hexStr.length < 2 then .error .hexTooShort else .ok hexStr

/-- `WriteBlob`: content-addressed write with deduplication; an existing file
at the blob path short-circuits.  The atomic temp-file/rename dance leaves no
observable trace in the model. -/
def WriteBlob (H : Data → Str) (st : ObjectStore) (data : Data) :
    Except BlobErr (Str × ObjectStore) :=
  let ref := HashContent H data
  match blobPath ref with
  | .error e => .error e
  | .ok hexPath =>
    match lookupKey hexPath st with
    | some _ => .ok (ref, st)
    | none => .ok (ref, (hexPath, data) :: st)

/-- `ReadBlob`: read a blob and verify its integrity against the requested
reference. -/
def ReadBlob (H : Data → Str) (st : ObjectStore) (ref : Str) :
    Except BlobErr Data :=
  match blobPath ref with
  | .error e => .error e
  | .ok hexPath =>
    match lookupKey hexPath st with
    | none => .error (.notFound (ShortHash ref 12))
    | some data =>
      let actual := HashContent H data
      if actual ≠ ref then .error (.integrity (ShortHash ref 12) (ShortHash actual 12))
      else .ok data

/-- `BlobExists`: non-verifying existence check. -/
def BlobExists (st : ObjectStore) (ref : Str) : Bool :=
  match blobPath ref with
  | .error _ => false
  | .ok hexPath => (lookupKey hexPath st).isSome

/- ------------------------------------------------------------------ -/
/- internal/pack: data model (pack.go), creation (create.go),           -/
/- loading (load.go), parse.go types                                    -/
/- ------------------------------------------------------------------ -/

/-- `pack.Model`: model identifier plus opaque parameter map (`null` or an
object, as decoded from JSON into `map[string]interface{}`). -/
structure PackModel where
  identifier : Str
  parameters : Json


/-- `pack.Prompt`. -/
structure Prompt where
  role : Str
  contentRef : Str
  deriving DecidableEq

/-- `pack.Input`. -/
structure Input where
  name : Str
  contentRef : Str
  size : Int
  deriving DecidableEq

/-- `pack.Step`.  The timestamp is its RFC3339 string form. -/
structure Step where
  index : Int
  type : Str
  tool : Str
  parameters : Json
  outputRef : Str
  deterministic : Bool
  timestamp : Str


/-- `pack.Output`. -/
structure Output where
  name : Str
  contentRef : Str
  contextPack : Str
  deriving DecidableEq

/-- `pack.Environment`.  `toolVersions` is a Go `map[string]string`; a `nil`
map and an empty one are identified (both round-trip). -/
structure Environment where
  os : Str
  runtime : Str
  toolVersions : List (Str × Str)
  deriving DecidableEq

/-- `pack.Pack`: the manifest. -/
structure Pack where
  version : Str
  hash : Str
  created : Str
  model : PackModel
  systemPrompt : Str
  prompts : List Prompt
  inputs : List Input
  steps : List Step
  outputs : List Output
  environment : Environment
  parent : Str


/-- `pack.LogModel`. -/
structure LogModel where
  identifier : Str
  parameters : Json


/-- `pack.LogPrompt`. -/
structure LogPrompt where
  role : Str
  content : Str


/-- `pack.LogInput`. -/
structure LogInput where
  name : Str
  content : Str


/-- `pack.LogStep`. -/
structure LogStep where
  index : Int
  type : Str
  tool : Str
  parameters : Json
  output : Str
  deterministic : Bool
  timestamp : Str


/-- `pack.LogOutput`. -/
structure LogOutput where
  name : Str
  content : Str


/-- `pack.LogEnvironment`. -/
structure LogEnvironment where
  os : Str
  runtime : Str
  toolVersions : List (Str × Str)


/-- `pack.ExecutionLog` (the already-decoded raw log). -/
structure ExecutionLog where
  model : LogModel
  systemPrompt : Str
  prompts : List LogPrompt
  inputs : List LogInput
  steps : List LogStep
  outputs : List LogOutput
  environment : LogEnvironment


/-- `json.Marshal` of a `Prompt` (struct field order). -/
def promptToJson (p : Prompt) : Json :=
  .obj [(ks "role", .str p.role), (ks "content_ref", .str p.contentRef)]

/-- `json.Marshal` of an `Input`. -/
def inputToJson (i : Input) : Json :=
  .obj [(ks "name", .str i.name), (ks "content_ref", .str i.contentRef),
        (ks "size", .num (i.size : ℚ))]

/-- `json.Marshal` of a `Step`; the `parameters` map marshals with sorted keys
at every depth. -/
def stepToJson (s : Step) : Json :=
  .obj [(ks "index", .num (s.index : ℚ)), (ks "type", .str s.type),
        (ks "tool", .str s.tool), (ks "parameters", sortKeysJ s.parameters),
        (ks "output_ref", .str s.outputRef),
        (ks "deterministic", .bool s.deterministic),
        (ks "timestamp", .str s.timestamp)]

/-- `json.Marshal` of an `Output`; `context_pack` carries `omitempty`. -/
def outputToJson (o : Output) : Json :=
  .obj ([(ks "name", .str o.name), (ks "content_ref", .str o.contentRef)] ++
    (if o.contextPack = [] then [] else [(ks "context_pack", .str o.contextPack)]))

/-- `json.Marshal` of an `Environment`; the `tool_versions` map marshals with
sorted keys. -/
def envToJson (e : Environment) : Json :=
  .obj [(ks "os", .str e.os), (ks "runtime", .str e.runtime),
        (ks "tool_versions",
          .obj (sortBy (fun p q => strLe p.1 q.1)
            (e.toolVersions.map (fun kv => (kv.1, Json.str kv.2)))))]

/-- `json.Marshal` of a `PackModel`. -/
def modelToJson (m : PackModel) : Json :=
  .obj [(ks "identifier", .str m.identifier),
        (ks "parameters", sortKeysJ m.parameters)]

/-- `json.Marshal` of a `Pack` (struct field order; `hash` has no `omitempty`
and is always present, `parent` carries `omitempty`). -/
def packToJson (p : Pack) : Json :=
  .obj ([(ks "version", .str p.version), (ks "hash", .str p.hash),
         (ks "created", .str p.created), (ks "model", modelToJson p.model),
         (ks "system_prompt", .str p.systemPrompt),
         (ks "prompts", .arr (p.prompts.map promptToJson)),
         (ks "inputs", .arr (p.inputs.map inputToJson)),
         (ks "steps", .arr (p.steps.map stepToJson)),
         (ks "outputs", .arr (p.outputs.map outputToJson)),
         (ks "environment", envToJson p.environment)] ++
    (if p.parent = [] then [] else [(ks "parent", .str p.parent)]))

/-- `canonicalJSON` of create.go, applied to a pack: marshal, re-parse into
generic maps, sort keys recursively, re-marshal.  At the document level the
composite is the key-sorted form of the marshalled document. -/
def canonicalJSON (p : Pack) : Json :=
  sortKeysJ (packToJson p)

/-- Field extraction for `json.Unmarshal` into a `string` field: an absent key
or JSON `null` leaves the zero value, a non-string is an error. -/
def getStr (o : List (Str × Json)) (k : Str) : Option Str :=
  match lookupKey k o with
  | none => some []
  | some .null => some []
  | some (.str s) => some s
  | some _ => none

/-- `json.Unmarshal` into an `int` field (JSON numbers with a fractional part
are rejected). -/
def getInt (o : List (Str × Json)) (k : Str) : Option Int :=
  match lookupKey k o with
  | none => some 0
  | some .null => some 0
  | some (.num q) => if q.den = 1 then some q.num else none
  | some _ => none

/-- `json.Unmarshal` into a `bool` field. -/
def getBool (o : List (Str × Json)) (k : Str) : Option Bool :=
  match lookupKey k o with
  | none => some false
  | some .null => some false
  | some (.bool b) => some b
  | some _ => none

/-- `json.Unmarshal` into a slice field (absent / `null` gives the empty
slice). -/
def getArr (o : List (Str × Json)) (k : Str) : Option (List Json) :=
  match lookupKey k o with
  | none => some []
  | some .null => some []
  | some (.arr l) => some l
  | some _ => none

/-- `json.Unmarshal` into a `map[string]interface{}` field: `null` or absent
gives the nil map, an object gives the map, anything else is an error. -/
def getMapJ (o : List (Str × Json)) (k : Str) : Option Json :=
  match lookupKey k o with
  | none => some .null
  | some .null => some .null
  | some (.obj l) => some (.obj l)
  | some _ => none

/-- Option-valued map over a list (`mapM` for `Option`, kept structural). -/
def mapO {α β : Type} (f : α → Option β) : List α → Option (List β)
  | [] => some []
  | a :: t =>
    match f a, mapO f t with
    | some b, some bs => some (b :: bs)
    | _, _ => none

/-- `json.Unmarshal` into a `map[string]string` field. -/
def getStrMap (o : List (Str × Json)) (k : Str) : Option (List (Str × Str)) :=
  match lookupKey k o with
  | none => some []
  | some .null => some []
  | some (.obj l) =>
    mapO (fun kv => match kv.2 with
      | Json.str s => some (kv.1, s)
      | _ => none) l
  | some _ => none

/-- `json.Unmarshal` of a `Prompt`. -/
def jsonToPrompt (j : Json) : Option Prompt :=
  match j with
  | .obj o => do
    let role ← getStr o (ks "role")
    let contentRef ← getStr o (ks "content_ref")
    some { role := role, contentRef := contentRef }
  | .null => some { role := [], contentRef := [] }
  | _ => none

/-- `json.Unmarshal` of an `Input`. -/
def jsonToInput (j : Json) : Option Input :=
  match j with
  | .obj o => do
    let name ← getStr o (ks "name")
    let contentRef ← getStr o (ks "content_ref")
    let size ← getInt o (ks "size")
    some { name := name, contentRef := contentRef, size := size }
  | .null => some { name := [], contentRef := [], size := 0 }
  | _ => none

/-- `json.Unmarshal` of a `Step`. -/
def jsonToStep (j : Json) : Option Step :=
  match j with
  | .obj o => do
    let index ← getInt o (ks "index")
    let type ← getStr o (ks "type")
    let tool ← getStr o (ks "tool")
    let parameters ← getMapJ o (ks "parameters")
    let outputRef ← getStr o (ks "output_ref")
    let deterministic ← getBool o (ks "deterministic")
    let timestamp ← getStr o (ks "timestamp")
    some { index := index, type := type, tool := tool, parameters := parameters,
           outputRef := outputRef, deterministic := deterministic,
           timestamp := timestamp }
  | .null => some { index := 0, type := [], tool := [], parameters := .null,
                    outputRef := [], deterministic := false, timestamp := [] }
  | _ => none

/-- `json.Unmarshal` of an `Output`. -/
def jsonToOutput (j : Json) : Option Output :=
  match j with
  | .obj o => do
    let name ← getStr o (ks "name")
    let contentRef ← getStr o (ks "content_ref")
    let contextPack ← getStr o (ks "context_pack")
    some { name := name, contentRef := contentRef, contextPack := contextPack }
  | .null => some { name := [], contentRef := [], contextPack := [] }
  | _ => none

/-- `json.Unmarshal` of a `PackModel`. -/
def jsonToModel (j : Json) : Option PackModel :=
  match j with
  | .obj o => do
    let identifier ← getStr o (ks "identifier")
    let parameters ← getMapJ o (ks "parameters")
    some { identifier := identifier, parameters := parameters }
  | .null => some { identifier := [], parameters := .null }
  | _ => none

/-- `json.Unmarshal` of an `Environment`. -/
def jsonToEnv (j : Json) : Option Environment :=
  match j with
  | .obj o => do
    let os ← getStr o (ks "os")
    let runtime ← getStr o (ks "runtime")
    let toolVersions ← getStrMap o (ks "tool_versions")
    some { os := os, runtime := runtime, toolVersions := toolVersions }
  | .null => some { os := [], runtime := [], toolVersions := [] }
  | _ => none

/-- A nested-struct field (`model`, `environment`): absent or `null` leaves
the zero struct, otherwise the struct unmarshals from the value. -/
def getWith {α : Type} (zero : α) (f : Json → Option α)
    (o : List (Str × Json)) (k : Str) : Option α :=
  match lookupKey k o with
  | none => some zero
  | some v => f v

/-- `json.Unmarshal` of a `Pack` manifest document. -/
def jsonToPack (j : Json) : Option Pack :=
  match j with
  | .obj o => do
    let version ← getStr o (ks "version")
    let hash ← getStr o (ks "hash")
    let created ← getStr o (ks "created")
    let model ← getWith { identifier := [], parameters := .null } jsonToModel o (ks "model")
    let systemPrompt ← getStr o (ks "system_prompt")
    let promptsJ ← getArr o (ks "prompts")
    let prompts ← mapO jsonToPrompt promptsJ
    let inputsJ ← getArr o (ks "inputs")
    let inputs ← mapO jsonToInput inputsJ
    let stepsJ ← getArr o (ks "steps")
    let steps ← mapO jsonToStep stepsJ
    let outputsJ ← getArr o (ks "outputs")
    let outputs ← mapO jsonToOutput outputsJ
    let environment ← getWith { os := [], runtime := [], toolVersions := [] }
      jsonToEnv o (ks "environment")
    let parent ← getStr o (ks "parent")
    some { version := version, hash := hash, created := created, model := model,
           systemPrompt := systemPrompt, prompts := prompts, inputs := inputs,
           steps := steps, outputs := outputs, environment := environment,
           parent := parent }
  | _ => none

/-- Error raised by `CreatePack` (each wraps the blob-store error of one of
the `storing ...` contexts in create.go). -/
inductive CreateErr where
  | storing (e : BlobErr)

/-- The prompt-writing loop of `CreatePack`. -/
def writePrompts (H : Data → Str) (st : ObjectStore) :
    List LogPrompt → Except BlobErr (List Prompt × ObjectStore)
  | [] => .ok ([], st)
  | p :: t => do
    let (ref, st') ← WriteBlob H st (.bytes p.content)
    let (rest, st'') ← writePrompts H st' t
    .ok ({ role := p.role, contentRef := ref } :: rest, st'')

/-- The input-writing loop of `CreatePack` (records the byte size). -/
def writeInputs (H : Data → Str) (st : ObjectStore) :
    List LogInput → Except BlobErr (List Input × ObjectStore)
  | [] => .ok ([], st)
  | i :: t => do
    let (ref, st') ← WriteBlob H st (.bytes i.content)
    let (rest, st'') ← writeInputs H st' t
    .ok ({ name := i.name, contentRef := ref, size := (i.content.length : Int) } :: rest, st'')

/-- The step-writing loop of `CreatePack` (an empty step output is not written
and leaves an empty `output_ref`). -/
def writeSteps (H : Data → Str) (st : ObjectStore) :
    List LogStep → Except BlobErr (List Step × ObjectStore)
  | [] => .ok ([], st)
  | s :: t => do
    let (outputRef, st') ←
      if s.output = [] then (.ok (([] : Str), st) : Except BlobErr (Str × ObjectStore))
      else WriteBlob H st (.bytes s.output)
    let (rest, st'') ← writeSteps H st' t
    .ok ({ index := s.index, type := s.type, tool := s.tool,
           parameters := s.parameters, outputRef := outputRef,
           deterministic := s.deterministic, timestamp := s.timestamp } :: rest, st'')

/-- The output-writing loop of `CreatePack`. -/
def writeOutputs (H : Data → Str) (st : ObjectStore) :
    List LogOutput → Except BlobErr (List Output × ObjectStore)
  | [] => .ok ([], st)
  | o :: t => do
    let (ref, st') ← WriteBlob H st (.bytes o.content)
    let (rest, st'') ← writeOutputs H st' t
    .ok ({ name := o.name, contentRef := ref, contextPack := [] } :: rest, st'')

/-- `CreatePack` (create.go): store every content string as a blob, build the
manifest, serialize it canonically with the `hash` field still empty, store
that serialization as a blob, set the pack hash from the resulting reference
and only then set each output's `context_pack` back-reference.  `now` is the
UTC creation timestamp. -/
def CreatePack (H : Data → Str) (st : ObjectStore) (log : ExecutionLog)
    (now : Str) : Except CreateErr (Pack × ObjectStore) :=
  match
    (do
      let (sysRef, st1) ← WriteBlob H st (.bytes log.systemPrompt)
      let (prompts, st2) ← writePrompts H st1 log.prompts
      let (inputs, st3) ← writeInputs H st2 log.inputs
      let (steps, st4) ← writeSteps H st3 log.steps
      let (outputs, st5) ← writeOutputs H st4 log.outputs
      let p : Pack :=
        { version := ks "0.1", hash := [], created := now,
          model := { identifier := log.model.identifier,
                     parameters := log.model.parameters },
          systemPrompt := sysRef, prompts := prompts, inputs := inputs,
          steps := steps, outputs := outputs,
          environment := { os := log.environment.os,
                           runtime := log.environment.runtime,
                           toolVersions := log.environment.toolVersions },
          parent := [] }
      let manifestData := canonicalJSON p
      let (hash, st6) ← WriteBlob H st5 (.json manifestData)
      let p' : Pack :=
        { p with hash := hash,
                 outputs := p.outputs.map (fun o => { o with contextPack := hash }) }
      .ok (p', st6) : Except BlobErr (Pack × ObjectStore))
  with
  | .ok r => .ok r
  | .error e => .error (.storing e)

/-- `CanonicalHash` (create.go): hash of the canonical serialization with the
`hash` field cleared. -/
def CanonicalHash (H : Data → Str) (p : Pack) : Str :=
  HashContent H (.json (canonicalJSON { p with hash := [] }))

/-- Errors of `RegisterPack` / `writeFileIfNotExists`. -/
inductive RegErr where
  | invalidRef (e : HashErr)
  | already
  deriving DecidableEq

/-- `RegisterPack` (create.go): create `packs/<hex>` exclusively, containing
the full reference; an existing registry file is the file-already-present
error of `openFileExclusive` (constructor `already`).  The registry
is modelled by its list of file names. -/
def RegisterPack (packs : List Str) (hash : Str) : Except RegErr (List Str) :=
  match ParseHash hash with
  | .error e => .error (.invalidRef e)
  | .ok (_, hexStr) =>
    if hexStr ∈ packs then .error .already else .ok (hexStr :: packs)

/-- Errors of `LoadPack`. -/
inductive LoadErr where
  | invalidHash (e : ResolveErr)
  | packNotFound (short : Str)
  | parseFailed
  deriving DecidableEq

/-- `LoadPack` (load.go): resolve the reference, read the manifest blob, parse
the JSON, then set the `hash` field from the blob identity (the stored blob
does not carry it). -/
def LoadPack (H : Data → Str) (objects : ObjectStore) (packs : List Str)
    (ref : Str) : Except LoadErr Pack :=
  match ResolveHash packs ref with
  | .error e => .error (.invalidHash e)
  | .ok normalized =>
    match ReadBlob H objects normalized with
    | .error _ => .error (.packNotFound (ShortHash normalized 12))
    | .ok (.json j) =>
      match jsonToPack j with
      | none => .error .parseFailed
      | some p => .ok { p with hash := normalized }
    | .ok (.bytes _) => .error .parseFailed

/- ------------------------------------------------------------------ -/
/- internal/sharing: FinalizeDraft (log.go)                             -/
/- ------------------------------------------------------------------ -/

/-- Errors of `FinalizeDraft`. -/
inductive FinalizeErr where
  | noParent
  | storing (e : BlobErr)
  | registering (e : RegErr)

/-- `FinalizeDraft` (sharing/log.go), applied to the already-parsed draft
manifest (the read/unmarshal of the draft file is the I/O layer): require a
parent, clear the hash, serialize with `json.Marshal(&p)` — NOT with
`canonicalJSON`; the document keeps the struct field order — store the result
as a blob, set the hash, register (an already-registered hash is tolerated),
remove the draft file (below the model).  Returns the finalized pack with the
updated object store and registry. -/
def FinalizeDraft (H : Data → Str) (objects : ObjectStore) (packs : List Str)
    (draft : Pack) : Except FinalizeErr (Pack × ObjectStore × List Str) :=
  if draft.parent = [] then .error .noParent
  else
    let p : Pack := { draft with hash := [] }
    let canonicalData := packToJson p
    match WriteBlob H objects (.json canonicalData) with
    | .error e => .error (.storing e)
    | .ok (hash, objects') =>
      match RegisterPack packs hash with
      | .ok packs' => .ok ({ p with hash := hash }, objects', packs')
      | .error .already => .ok ({ p with hash := hash }, objects', packs)
      | .error e => .error (.registering e)

/- ------------------------------------------------------------------ -/
/- internal/replay: executors (executor.go), engine (replay.go)         -/
/- ------------------------------------------------------------------ -/

/-- `replay.FidelityLevel`. -/
inductive FidelityLevel where
  | exact
  | degraded
  | failed
  deriving DecidableEq

/-- `replay.StepStatus`. -/
inductive StepStatus where
  | matched
  | diverged
  | failed
  deriving DecidableEq

/-- Failure reason of a step (`tool not available: ...` or
`execution error: ...`). -/
inductive FailReason where
  | toolNotAvailable (tool : Str)
  | executionError
  deriving DecidableEq

/-- `replay.StepResult`. -/
structure StepResult where
  index : Int
  tool : Str
  status : StepStatus
  expectedHash : Str
  actualHash : Str
  deterministic : Bool
  reason : Option FailReason
  deriving DecidableEq

/-- One drift entry of the report (`environment` / `missing_input`). -/
inductive DriftEntry where
  | environment (expected actual : Str)
  | missingInput (name : Str) (expected : Str)
  deriving DecidableEq

/-- `replay.ReplayReport` (start/end wall-clock times are below the model). -/
structure ReplayReport where
  packHash : Str
  fidelity : FidelityLevel
  steps : List StepResult
  drift : List DriftEntry
  deriving DecidableEq

/-- The local file system visible to tool executors (path to contents). -/
abbrev FileSys := List (Str × Str)

/-- Executor error: the Go executor returns `([]byte, error)`. -/
abbrev ExecResult := Except FailReason Str

/-- A registered tool executor. -/
abbrev ToolExecutor := FileSys → Str → Json → ExecResult

/-- The built-in `read_file` executor: the `path` parameter must be a string,
and the file is read from the local filesystem. -/
def readFileExecutor : ToolExecutor := fun fs _tool params =>
  match params with
  | .obj o =>
    match lookupKey (ks "path") o with
    | some (.str path) =>
      match lookupKey path fs with
      | some content => .ok content
      | none => .error .executionError
    | _ => .error .executionError
  | _ => .error .executionError

/-- `DefaultExecutors`: the v0.1 built-in catalog. -/
def DefaultExecutors : List (Str × ToolExecutor) :=
  [(ks "read_file", readFileExecutor)]

/-- `ExecuteStep` (executor.go): dispatch the step's tool, run it, hash the
output and compare with the recorded `output_ref`. -/
def ExecuteStep (H : Data → Str) (fs : FileSys)
    (executors : List (Str × ToolExecutor)) (step : Step) : StepResult :=
  let base : StepResult :=
    { index := step.index, tool := step.tool, status := .matched,
      expectedHash := step.outputRef, actualHash := [],
      deterministic := step.deterministic, reason := none }
  match lookupKey step.tool executors with
  | none => { base with status := .failed, reason := some (.toolNotAvailable step.tool) }
  | some executor =>
    match executor fs step.tool step.parameters with
    | .error _ => { base with status := .failed, reason := some .executionError }
    | .ok output =>
      let actualHash := HashContent H (.bytes output)
      if actualHash = step.outputRef then
        { base with status := .matched, actualHash := actualHash }
      else
        { base with status := .diverged, actualHash := actualHash }

/-- `checkEnvironmentDrift` (replay.go): only the OS is compared. -/
def checkEnvironmentDrift (p : Pack) (currentOS : Str) : List DriftEntry :=
  if p.environment.os ≠ [] ∧ p.environment.os ≠ currentOS then
    [.environment p.environment.os currentOS]
  else []

/-- The missing-input availability check of `Replay`. -/
def missingInputDrift (objects : ObjectStore) (inputs : List Input) : List DriftEntry :=
  inputs.filterMap (fun i =>
    if BlobExists objects i.contentRef then none
    else some (.missingInput i.name (ShortHash i.contentRef 12)))

/-- The fidelity switch of `Replay`: `failed` if any step failed, else
`degraded` if any deterministic step diverged, else `exact`. -/
def fidelityOf (results : List StepResult) : FidelityLevel :=
  let hasFailed := results.any (fun r => r.status = .failed)
  let hasDiverged := results.any (fun r => r.status = .diverged ∧ r.deterministic)
  if hasFailed then .failed else if hasDiverged then .degraded else .exact

/-- The body of `Replay` (replay.go) after `LoadPack` succeeded: environment
drift, input availability, step execution with `DefaultExecutors`, fidelity.
`currentOS` is `runtime.GOOS`. -/
def replayLoaded (H : Data → Str) (objects : ObjectStore) (fs : FileSys)
    (currentOS : Str) (p : Pack) : ReplayReport :=
  let results := p.steps.map (ExecuteStep H fs DefaultExecutors)
  { packHash := p.hash, fidelity := fidelityOf results, steps := results,
    drift := checkEnvironmentDrift p currentOS ++
             missingInputDrift objects p.inputs }

/-- `Replay` (replay.go): load the pack, then replay it. -/
def Replay (H : Data → Str) (objects : ObjectStore) (packs : List Str)
    (fs : FileSys) (currentOS : Str) (packHash : Str) :
    Except LoadErr ReplayReport :=
  match LoadPack H objects packs packHash with
  | .error e => .error e
  | .ok p => .ok (replayLoaded H objects fs currentOS p)

/- ------------------------------------------------------------------ -/
/- internal/graph: record shapes (records.go)                           -/
/- ------------------------------------------------------------------ -/

/-- `graph.PathRecord` (fields not consumed by the claims' functions are kept
for shape fidelity). -/
structure PathRecord where
  type : Str
  pathID : Str
  repo : Str
  path : Str
  firstSeenCommit : Str
  lastSeenCommit : Option Str
  deriving DecidableEq

/-- `graph.FileSnapshot`. -/
structure FileSnapshot where
  type : Str
  commit : Str
  pathID : Str
  blobOID : Str
  contentSHA256 : Str
  language : Str
  byteSize : Int
  loc : Int
  isGenerated : Bool
  isBinary : Bool
  deriving DecidableEq

/-- `graph.SymbolRecord`. -/
structure SymbolRecord where
  type : Str
  commit : Str
  symbolID : Str
  pathID : Str
  kind : Str
  name : Str
  fqName : Str
  visibility : Str
  language : Str
  signature : Str
  docstring : Str
  symbolHash : Str
  defRegionID : Str
  deriving DecidableEq

/- ------------------------------------------------------------------ -/
/- internal/delta: ComputeDelta (delta.go)                              -/
/- ------------------------------------------------------------------ -/

/-- `delta.DeltaReport` (the symbols-invalidated list is always empty in the
source — "Phase 2"). -/
structure DeltaReport where
  base : Str
  head : Str
  filesChanged : List Str
  filesAdded : List Str
  filesDeleted : List Str
  deriving DecidableEq

/-- `IsEmpty` of delta.go. -/
def DeltaReport.IsEmpty (r : DeltaReport) : Bool :=
  r.filesChanged.isEmpty && r.filesAdded.isEmpty && r.filesDeleted.isEmpty

/-- Go map construction by successive assignment (`m[key f] = f`), modelling
the snapshot maps of `ComputeDelta` (later duplicates replace earlier ones,
exactly as in Go). -/
def buildMap {β : Type} (key : β → Str) (l : List β) : List (Str × β) :=
  l.foldl (fun m f => insertRep (key f) f m) []

/-- The `pathLookup` map of `ComputeDelta` and `GeneratePack`: path-id to
path, later records replacing earlier ones (Go map assignment). -/
def pathLookupMap (paths : List PathRecord) : List (Str × Str) :=
  paths.foldl (fun m p => insertRep p.pathID p.path m) []

/-- The path-resolution fallback of `ComputeDelta`: a path-id missing from the
path map (or mapped to the empty string) resolves to itself. -/
def resolvePath (pathLookup : List (Str × Str)) (pathID : Str) : Str :=
  let path := (lookupKey pathID pathLookup).getD []
  if path = [] then pathID else path

/-- `ComputeDelta` (delta.go), applied to the already-read record streams of
the two snapshots and of the global path manifest (the JSONL reads are the I/O
layer).  Iteration over the Go maps is modelled by iterating the association
lists; the output lists are sorted, so the arbitrary Go map order is
immaterial. -/
def ComputeDelta (baseSHA headSHA : Str) (baseFiles headFiles : List FileSnapshot)
    (paths : List PathRecord) : DeltaReport :=
  let baseMap := buildMap (fun f => f.pathID) baseFiles
  let headMap := buildMap (fun f => f.pathID) headFiles
  let pathLookup := pathLookupMap paths
  let added := headMap.filterMap (fun e =>
    match lookupKey e.1 baseMap with
    | none => some (resolvePath pathLookup e.1)
    | some _ => none)
  let changed := headMap.filterMap (fun e =>
    match lookupKey e.1 baseMap with
    | some baseFile =>
      if baseFile.contentSHA256 ≠ e.2.contentSHA256 then
        some (resolvePath pathLookup e.1)
      else none
    | none => none)
  let deleted := baseMap.filterMap (fun e =>
    match lookupKey e.1 headMap with
    | none => some (resolvePath pathLookup e.1)
    | some _ => none)
  { base := baseSHA, head := headSHA,
    filesChanged := sortBy strLe changed,
    filesAdded := sortBy strLe added,
    filesDeleted := sortBy strLe deleted }

/- ------------------------------------------------------------------ -/
/- internal/optimize: GeneratePack (generate.go)                        -/
/- ------------------------------------------------------------------ -/

/-- `optimize.DefaultTokenCap`. -/
def DefaultTokenCap : Int := 32000

/-- `optimize.PackRequest`. -/
structure PackRequest where
  commit : Str
  task : Str
  tokenCap : Int
  includeTests : Bool
  deriving DecidableEq

/-- `optimize.PackItem`. -/
structure PackItem where
  path : Str
  language : Str
  symbolID : Str
  symbolName : Str
  estimatedTokens : Int
  reason : Str
  deriving DecidableEq

/-- `optimize.OptimizedPack` (snippets and ADR constraints are never filled by
the source). -/
structure OptimizedPack where
  commit : Str
  task : Str
  files : List PackItem
  symbols : List PackItem
  estimatedTokens : Int
  tokenCap : Int
  deriving DecidableEq

/-- `estimateTokens`: `int(float64(byteSize) * 0.25)` (exact in `float64` and
truncated toward zero, hence `Int.tdiv` by 4), floored at 1. -/
def estimateTokens (byteSize : Int) : Int :=
  let tokens := Int.tdiv byteSize 4
  if tokens < 1 then 1 else tokens

/-- ASCII lower-casing of a Go string (`strings.ToLower`; every string the
claims touch is ASCII). -/
def toLowerStr (s : Str) : Str := s.map Char.toLower

/-- The delimiter set of `extractTaskWords`'s `strings.FieldsFunc`. -/
def isTaskDelim (c : Char) : Bool :=
  c = ' ' ∨ c = ',' ∨ c = '.' ∨ c = ';' ∨ c = ':' ∨ c = '-' ∨ c = '_' ∨
  c = '/' ∨ c = '\'' ∨ c = '"'

/-- `strings.FieldsFunc`: maximal runs of non-delimiter characters. -/
def fieldsAux : Str → Str → List Str
  | [], cur => if cur = [] then [] else [cur.reverse]
  | c :: t, cur =>
    if isTaskDelim c then
      if cur = [] then fieldsAux t [] else cur.reverse :: fieldsAux t []
    else fieldsAux t (c :: cur)

/-- Split a task string into fields at the delimiter set. -/
def fieldsFunc (s : Str) : List Str := fieldsAux s []

/-- The stop-word set of `extractTaskWords`. -/
def stopWords : List Str :=
  [ks "the", ks "a", ks "an", ks "and", ks "or", ks "to", ks "in", ks "of",
   ks "for", ks "is", ks "it", ks "on", ks "at", ks "by", ks "with",
   ks "from", ks "this", ks "that", ks "be", ks "as", ks "add", ks "fix",
   ks "update", ks "implement"]

/-- `extractTaskWords`: split, lower-case, drop words shorter than 3
characters and stop words. -/
def extractTaskWords (task : Str) : List Str :=
  (fieldsFunc task).filterMap (fun w =>
    let w := toLowerStr w
    if 3 ≤ w.length ∧ w ∉ stopWords then some w else none)

/-- `strings.Contains s sub`: `sub` occurs as a contiguous substring. -/
def strContains : Str → Str → Bool
  | [], sub => sub.isPrefixOf ([] : Str)
  | c :: t, sub => sub.isPrefixOf (c :: t) || strContains t sub

/-- `isTestFile`. -/
def isTestFile (path : Str) : Bool :=
  let lower := toLowerStr path
  strContains lower (ks "_test.") || strContains lower (ks ".test.") ||
  strContains lower (ks ".spec.") || strContains lower (ks "__tests__/") ||
  strContains lower (ks "test/") || strContains lower (ks "tests/")

/-- `scoreFile`, in fixed-point tenths (`float64` 0.5 is 5, 2.0 is 20, the
per-level penalty 0.1 is 1; all source constants are exact in tenths and the
claims' comparisons are far from any rounding boundary). -/
def scoreFile (path language : Str) (taskWords : List Str) : Int :=
  let pathLower := toLowerStr path
  let score : Int := 0
  let score :=
    if language = ks "go" ∨ language = ks "typescript" ∨
       language = ks "javascript" ∨ language = ks "python" ∨
       language = ks "rust" ∨ language = ks "java"
    then score + 5 else score
  let score := taskWords.foldl
    (fun sc w => if strContains pathLower w then sc + 20 else sc) score
  let base := toLowerStr path
  let score :=
    if strContains base (ks "main.") ∨ strContains base (ks "index.") ∨
       strContains base (ks "app.")
    then score + 5 else score
  let depth : Int := (path.count '/' : Nat)
  if 3 < depth then score - (depth - 3) * 1 else score

/-- `scoreSymbol`, in fixed-point tenths (1.0 is 10, 0.5 is 5, 2.0 is 20). -/
def scoreSymbol (sym : SymbolRecord) (taskWords : List Str) : Int :=
  let nameLower := toLowerStr sym.name
  let fqLower := toLowerStr sym.fqName
  let score : Int := 0
  let score := if sym.visibility = ks "exported" then score + 10 else score
  let score :=
    if sym.kind = ks "function" ∨ sym.kind = ks "method" then score + 5 else score
  taskWords.foldl
    (fun sc w => if strContains nameLower w ∨ strContains fqLower w then sc + 20 else sc)
    score

/-- The `scoredFile` candidates of `GeneratePack`. -/
structure ScoredFile where
  snapshot : FileSnapshot
  path : Str
  score : Int
  tokens : Int
  reason : Str
  deriving DecidableEq

/-- The `scoredSymbol` candidates of `GeneratePack`. -/
structure ScoredSymbol where
  symbol : SymbolRecord
  score : Int
  tokens : Int
  deriving DecidableEq

/-- The candidate-building loop of `GeneratePack`: skip unresolvable paths,
binary, generated and (unless requested) test files; score and estimate the
rest. -/
def fileCandidates (files : List FileSnapshot) (plMap : List (Str × Str))
    (taskWords : List Str) (includeTests : Bool) : List ScoredFile :=
  files.filterMap (fun f =>
    let path := (lookupKey f.pathID plMap).getD []
    if path = [] then none
    else if f.isBinary ∨ f.isGenerated then none
    else if ¬ includeTests ∧ isTestFile path then none
    else
      let tokens := estimateTokens f.byteSize
      let score := scoreFile path f.language taskWords
      let reason :=
        if 20 ≤ score then ks "high-relevance"
        else if 10 ≤ score then ks "medium-relevance"
        else ks "low-relevance"
      some { snapshot := f, path := path, score := score, tokens := tokens,
             reason := reason })

/-- The candidate order of `GeneratePack`: score descending, then path
ascending. -/
def fileCandLe (a b : ScoredFile) : Bool :=
  decide (b.score < a.score) || (decide (a.score = b.score) && strLe a.path b.path)

/-- A file candidate as a pack item. -/
def fileItem (c : ScoredFile) : PackItem :=
  { path := c.path, language := c.snapshot.language, symbolID := [],
    symbolName := [], estimatedTokens := c.tokens, reason := c.reason }

/-- The file-filling loop of `GeneratePack`: a candidate that exceeds the
remaining budget is skipped unless its score is at least 2.0 and at least a
quarter of the cap remains; the loop stops once the budget is spent.  Returns
the admitted items and the remaining budget. -/
def fillFiles (cap : Int) (rem : Int) : List ScoredFile → List PackItem × Int
  | [] => ([], rem)
  | c :: t =>
    if c.tokens > rem ∧ (c.score < 20 ∨ rem < Int.tdiv cap 4) then
      fillFiles cap rem t
    else
      let rem' := rem - c.tokens
      if rem' ≤ 0 then ([fileItem c], rem')
      else
        let (items, remF) := fillFiles cap rem' t
        (fileItem c :: items, remF)

/-- The included-path set of the symbol phase: the path-ids of the first
snapshot resolving to each admitted file path. -/
def includedPathIDs (filesAdmitted : List PackItem) (files : List FileSnapshot)
    (plMap : List (Str × Str)) : List Str :=
  filesAdmitted.filterMap (fun item =>
    (files.find? (fun snap => (lookupKey snap.pathID plMap).getD [] = item.path)).map
      (fun snap => snap.pathID))

/-- The per-symbol token estimate of `GeneratePack`: signature plus docstring
length at 0.25 tokens per byte, floored at 10. -/
def symTokens (sym : SymbolRecord) : Int :=
  let tokens := estimateTokens ((sym.signature.length : Int) + (sym.docstring.length : Int))
  if tokens < 10 then 10 else tokens

/-- The symbol-candidate loop of `GeneratePack`: symbols of admitted files,
scored, with the floored token estimate. -/
def symCandidates (symbols : List SymbolRecord) (includedIDs : List Str)
    (taskWords : List Str) : List ScoredSymbol :=
  symbols.filterMap (fun sym =>
    if sym.pathID ∈ includedIDs then
      some { symbol := sym, score := scoreSymbol sym taskWords, tokens := symTokens sym }
    else none)

/-- The symbol order: score descending (ties in arbitrary order — the Go sort
is unstable with a strict comparator). -/
def symCandLe (a b : ScoredSymbol) : Bool :=
  decide (b.score < a.score)

/-- A symbol candidate as a pack item. -/
def symItem (plMap : List (Str × Str)) (s : ScoredSymbol) : PackItem :=
  { path := (lookupKey s.symbol.pathID plMap).getD [], language := [],
    symbolID := s.symbol.symbolID, symbolName := s.symbol.fqName,
    estimatedTokens := s.tokens,
    reason := ks "task-relevant-" ++ s.symbol.kind }

/-- The symbol-filling loop of `GeneratePack`: admit while the budget lasts. -/
def fillSymbols (plMap : List (Str × Str)) (rem : Int) :
    List ScoredSymbol → List PackItem × Int
  | [] => ([], rem)
  | s :: t =>
    if s.tokens > rem then fillSymbols plMap rem t
    else
      let rem' := rem - s.tokens
      if rem' ≤ 0 then ([symItem plMap s], rem')
      else
        let (items, remF) := fillSymbols plMap rem' t
        (symItem plMap s :: items, remF)

/-- The effective token cap (`DefaultTokenCap` when the request has none). -/
def optCap (req : PackRequest) : Int :=
  if req.tokenCap ≤ 0 then DefaultTokenCap else req.tokenCap

/-- The task-word list of a request. -/
def optTaskWords (req : PackRequest) : List Str :=
  extractTaskWords (toLowerStr req.task)

/-- The path-id to path map (`pathLookup`). -/
def optPlMap (paths : List PathRecord) : List (Str × Str) :=
  pathLookupMap paths

/-- The ranked file-candidate list. -/
def optSortedCands (files : List FileSnapshot) (paths : List PathRecord)
    (req : PackRequest) : List ScoredFile :=
  sortBy fileCandLe
    (fileCandidates files (optPlMap paths) (optTaskWords req) req.includeTests)

/-- The admitted files and remaining budget after the file phase. -/
def optFilePhase (files : List FileSnapshot) (paths : List PathRecord)
    (req : PackRequest) : List PackItem × Int :=
  fillFiles (optCap req) (optCap req) (optSortedCands files paths req)

/-- The admitted symbols of the symbol phase. -/
def optSymPhase (files : List FileSnapshot) (paths : List PathRecord)
    (symbols : List SymbolRecord) (req : PackRequest) : List PackItem :=
  if symbols.isEmpty then []
  else
    let (filesAdmitted, rem1) := optFilePhase files paths req
    let includedIDs := includedPathIDs filesAdmitted files (optPlMap paths)
    let sortedSyms := sortBy symCandLe
      (symCandidates symbols includedIDs (optTaskWords req))
    (fillSymbols (optPlMap paths) rem1 sortedSyms).1

/-- `GeneratePack` (generate.go), applied to the already-read record streams
(file snapshots of the commit, global path records, symbol records; the JSONL
reads and the git HEAD default are the I/O layer).  Scores and ranks the
files, greedily fills the token budget, then adds symbols of admitted files
while budget remains. -/
def GeneratePack (files : List FileSnapshot) (paths : List PathRecord)
    (symbols : List SymbolRecord) (req : PackRequest) : OptimizedPack :=
  let filesAdmitted := (optFilePhase files paths req).1
  let symbolsAdmitted := optSymPhase files paths symbols req
  let total := (filesAdmitted.map (fun f => f.estimatedTokens)).sum +
               (symbolsAdmitted.map (fun s => s.estimatedTokens)).sum
  { commit := req.commit, task := req.task, files := filesAdmitted,
    symbols := symbolsAdmitted, estimatedTokens := total, tokenCap := optCap req }

/- ------------------------------------------------------------------ -/
/- Hypothesis predicates and derived forms used by the claims           -/
/- ------------------------------------------------------------------ -/

/-- The digest function produces 64-character hex digests (shape guarantee of
`crypto/sha256` + `hex.EncodeToString`; lower-caseness is never needed). -/
def hashGood (H : Data → Str) : Prop :=
  ∀ d, (H d).length = 64 ∧ (H d).all isHexDigitChar = true

/-- Every stored blob hashes to its key (integrity invariant of an object
store; `WriteBlob` preserves it). -/
def storeConsistent (H : Data → Str) (st : ObjectStore) : Prop :=
  ∀ p ∈ st, H p.2 = p.1

/-- `H` distinguishes the listed blobs (collision-freeness of SHA-256 on the
finitely many contents a run touches). -/
def injOnData (H : Data → Str) (ds : List Data) : Prop :=
  ∀ d1 ∈ ds, ∀ d2 ∈ ds, H d1 = H d2 → d1 = d2

/-- A JSON value that can live in a `map[string]interface{}` slot: `null`
(nil map) or an object. -/
def Json.isMapShape : Json → Bool
  | .null => true
  | .obj _ => true
  | _ => false

/-- Canonical-representation invariant of an execution log: every embedded Go
map (model parameters, step parameters, tool versions) is represented by its
unique strictly-key-sorted association list, nested maps included. -/
def logMapsCanonical (log : ExecutionLog) : Prop :=
  log.model.parameters.isMapShape = true ∧
  Json.canonical log.model.parameters = true ∧
  (∀ s ∈ log.steps, s.parameters.isMapShape = true ∧
    Json.canonical s.parameters = true) ∧
  keysSortedStrict (log.environment.toolVersions.map (fun kv => (kv.1, Json.str kv.2))) = true

/-- The manifest pack `CreatePack` builds before hashing (hash empty, parent
empty, output back-references not yet set).  Blob references depend only on
`H` and the log, never on the pre-existing store. -/
def packOfLog (H : Data → Str) (log : ExecutionLog) (now : Str) : Pack :=
  { version := ks "0.1", hash := [], created := now,
    model := { identifier := log.model.identifier,
               parameters := log.model.parameters },
    systemPrompt := HashContent H (.bytes log.systemPrompt),
    prompts := log.prompts.map (fun p =>
      { role := p.role, contentRef := HashContent H (.bytes p.content) }),
    inputs := log.inputs.map (fun i =>
      { name := i.name, contentRef := HashContent H (.bytes i.content),
        size := (i.content.length : Int) }),
    steps := log.steps.map (fun s =>
      { index := s.index, type := s.type, tool := s.tool,
        parameters := s.parameters,
        outputRef := if s.output = [] then [] else HashContent H (.bytes s.output),
        deterministic := s.deterministic, timestamp := s.timestamp }),
    outputs := log.outputs.map (fun o =>
      { name := o.name, contentRef := HashContent H (.bytes o.content),
        contextPack := [] }),
    environment := { os := log.environment.os,
                     runtime := log.environment.runtime,
                     toolVersions := log.environment.toolVersions },
    parent := [] }

/-- All blob contents a `CreatePack` run writes, the manifest last. -/
def writtenData (H : Data → Str) (log : ExecutionLog) (now : Str) : List Data :=
  .bytes log.systemPrompt ::
  (log.prompts.map (fun p => Data.bytes p.content) ++
   log.inputs.map (fun i => Data.bytes i.content) ++
   (log.steps.filterMap (fun s => if s.output = [] then none else some (Data.bytes s.output))) ++
   log.outputs.map (fun o => Data.bytes o.content) ++
   [Data.json (canonicalJSON (packOfLog H log now))])

/-- Clear every output's `context_pack` back-reference. -/
def clearContextPacks (p : Pack) : Pack :=
  { p with outputs := p.outputs.map (fun o => { o with contextPack := [] }) }

/- ------------------------------------------------------------------ -/
/- Concrete instantiations used by counterexamples and witnesses        -/
/- ------------------------------------------------------------------ -/

/-- A constant well-shaped digest function (no collisions among distinct
blobs are needed where it is used). -/
def c0H : Data → Str := fun _ => List.replicate 64 '0'

/-- A digest distinguishing the text blob `xyz` (digest `a…`), every other
text blob (digest `b…`), and JSON documents (digest `c…`). -/
def cabH : Data → Str := fun d =>
  match d with
  | .bytes s => if s = ks "xyz" then List.replicate 64 'a' else List.replicate 64 'b'
  | .json _ => List.replicate 64 'c'

/-- A one-output execution log (system prompt `xyz`, output content `oc`). -/
def c1Log : ExecutionLog :=
  { model := { identifier := ks "m", parameters := .obj [] },
    systemPrompt := ks "xyz",
    prompts := [], inputs := [], steps := [],
    outputs := [{ name := ks "o", content := ks "oc" }],
    environment := { os := ks "linux", runtime := ks "go", toolVersions := [] } }

/-- A pack with a single non-deterministic `read_file` step whose recorded
output hash differs from the replayed one. -/
def c4Pack : Pack :=
  { version := ks "0.1", hash := hashScheme ++ List.replicate 64 'c',
    created := [], model := { identifier := ks "m", parameters := .null },
    systemPrompt := hashScheme ++ List.replicate 64 'b',
    prompts := [], inputs := [],
    steps := [{ index := 0, type := ks "tool_call", tool := ks "read_file",
                parameters := .obj [(ks "path", .str (ks "f"))],
                outputRef := hashScheme ++ List.replicate 64 'b',
                deterministic := false, timestamp := [] }],
    outputs := [],
    environment := { os := ks "linux", runtime := ks "go", toolVersions := [] },
    parent := [] }

/-- The file system for replaying `c4Pack`: `f` now holds `xyz`. -/
def c4Fs : FileSys := [(ks "f", ks "xyz")]

/-- A pack with no steps and one recorded input. -/
def c9Pack : Pack :=
  { version := ks "0.1", hash := hashScheme ++ List.replicate 64 'c',
    created := [], model := { identifier := ks "m", parameters := .null },
    systemPrompt := hashScheme ++ List.replicate 64 'b',
    prompts := [],
    inputs := [{ name := ks "i", contentRef := hashScheme ++ List.replicate 64 'e',
                 size := 2 }],
    steps := [], outputs := [],
    environment := { os := ks "linux", runtime := ks "go", toolVersions := [] },
    parent := [] }

/-- Base-side snapshot of path-id `p1`. -/
def c5f1 : FileSnapshot :=
  { type := ks "file_snapshot", commit := ks "c1", pathID := ks "p1",
    blobOID := [], contentSHA256 := ks "s1", language := ks "go",
    byteSize := 4, loc := 1, isGenerated := false, isBinary := false }

/-- Head-side snapshot of `p1` with changed content. -/
def c5f1h : FileSnapshot := { c5f1 with commit := ks "c2", contentSHA256 := ks "s2" }

/-- Snapshot of `p2`, present only in the head commit. -/
def c5f2 : FileSnapshot := { c5f1 with pathID := ks "p2", contentSHA256 := ks "s3" }

/-- Snapshot of `p3`, present only in the base commit. -/
def c5f3 : FileSnapshot := { c5f1 with pathID := ks "p3", contentSHA256 := ks "s4" }

/-- The global path records for `p1`, `p2`, `p3`. -/
def c5Paths : List PathRecord :=
  [{ type := ks "path", pathID := ks "p1", repo := ks "r", path := ks "a.go",
     firstSeenCommit := ks "c1", lastSeenCommit := none },
   { type := ks "path", pathID := ks "p2", repo := ks "r", path := ks "b.go",
     firstSeenCommit := ks "c1", lastSeenCommit := none },
   { type := ks "path", pathID := ks "p3", repo := ks "r", path := ks "c.go",
     firstSeenCommit := ks "c1", lastSeenCommit := none }]

/-- A single 400-byte high-relevance file (path `auth.go`). -/
def c6File : FileSnapshot :=
  { type := ks "file_snapshot", commit := ks "c", pathID := ks "p1",
    blobOID := [], contentSHA256 := ks "s", language := ks "go",
    byteSize := 400, loc := 10, isGenerated := false, isBinary := false }

/-- The path record for `c6File`. -/
def c6Paths : List PathRecord :=
  [{ type := ks "path", pathID := ks "p1", repo := ks "r", path := ks "auth.go",
     firstSeenCommit := ks "c", lastSeenCommit := none }]

/-- A tiny-budget request whose task matches `auth.go`. -/
def c6Req : PackRequest :=
  { commit := ks "c", task := ks "auth", tokenCap := 8, includeTests := false }

/-- A draft manifest with a parent (as parsed from a draft file). -/
def c7Draft : Pack :=
  { version := ks "0.1", hash := [], created := ks "t",
    model := { identifier := ks "m", parameters := .null },
    systemPrompt := hashScheme ++ List.replicate 64 'b',
    prompts := [], inputs := [], steps := [], outputs := [],
    environment := { os := ks "linux", runtime := ks "go", toolVersions := [] },
    parent := hashScheme ++ List.replicate 64 'c' }

deriving instance DecidableEq for Except

/-- A digest distinguishing a JSON object document by whether its first key is
`version` (`d…` when it is, `e…` otherwise, `f…` for everything else). -/
def c7H : Data → Str := fun d =>
  match d with
  | .json (.obj ((k, _) :: _)) =>
    if k = ks "version" then List.replicate 64 'd' else List.replicate 64 'e'
  | _ => List.replicate 64 'f'

/- ------------------------------------------------------------------ -/
/- General lemmas                                                       -/
/- ------------------------------------------------------------------ -/

theorem insertBy_perm {α : Type} (le : α → α → Bool) (a : α) :
    ∀ l : List α, List.Perm (insertBy le a l) (a :: l) := by
  intro l
  induction l with
  | nil => simp [insertBy]
  | cons b t ih =>
    simp only [insertBy]
    by_cases h : le a b = true
    · simp [h]
    · simp only [h]
      simp only [Bool.false_eq_true, if_false]
      exact (ih.cons b).trans (List.Perm.swap a b t)

theorem sortBy_perm {α : Type} (le : α → α → Bool) :
    ∀ l : List α, List.Perm (sortBy le l) l := by
  intro l
  induction l with
  | nil => simp [sortBy]
  | cons a t ih =>
    simpa [sortBy] using (insertBy_perm le a (sortBy le t)).trans (ih.cons a)

theorem mem_sortBy {α : Type} (le : α → α → Bool) (l : List α) (x : α) :
    x ∈ sortBy le l ↔ x ∈ l :=
  (sortBy_perm le l).mem_iff

theorem strLt_le : ∀ a b : Str, strLt a b = true → strLe a b = true := by
  intro a
  induction a with
  | nil => intro b _; cases b <;> simp [strLe]
  | cons c t ih =>
    intro b h
    cases b with
    | nil => simp [strLt] at h
    | cons c' t' =>
      simp only [strLt] at h
      simp only [strLe]
      by_cases h1 : c < c'
      · simp [h1]
      · simp only [h1, if_false] at h ⊢
        by_cases h2 : c' < c
        · simp [h2] at h
        · simp only [h2, if_false] at h ⊢
          exact ih t' h

theorem keysSortedStrict_tail {β : Type} (p : Str × β) (t : List (Str × β))
    (h : keysSortedStrict (p :: t) = true) : keysSortedStrict t = true := by
  cases t with
  | nil => rfl
  | cons q t' => simpa [keysSortedStrict] using (Bool.and_elim_right (by simpa [keysSortedStrict] using h))

theorem sortPairs_id {β : Type} :
    ∀ l : List (Str × β), keysSortedStrict l = true →
      sortBy (fun p q => strLe p.1 q.1) l = l := by
  intro l
  induction l with
  | nil => intro _; rfl
  | cons p t ih =>
    intro h
    have ht := keysSortedStrict_tail p t h
    simp only [sortBy, ih ht]
    cases t with
    | nil => rfl
    | cons q t' =>
      have hlt : strLt p.1 q.1 = true := by
        simpa [keysSortedStrict] using (Bool.and_elim_left (by simpa [keysSortedStrict] using h))
      simp [insertBy, strLt_le _ _ hlt]

mutual
theorem Json.beq_refl : ∀ a : Json, Json.beq a a = true
  | .null => rfl
  | .bool b => by simp [Json.beq]
  | .num q => by simp [Json.beq]
  | .str s => by simp [Json.beq]
  | .arr l => by simpa [Json.beq] using Json.beqArr_refl l
  | .obj l => by simpa [Json.beq] using Json.beqObj_refl l

theorem Json.beqArr_refl : ∀ l : List Json, Json.beqArr l l = true
  | [] => rfl
  | a :: t => by simp [Json.beqArr, Json.beq_refl a, Json.beqArr_refl t]

theorem Json.beqObj_refl : ∀ l : List (Str × Json), Json.beqObj l l = true
  | [] => rfl
  | (k, v) :: t => by simp [Json.beqObj, Json.beq_refl v, Json.beqObj_refl t]
end

theorem Json.ne_of_beq_false {a b : Json} (h : Json.beq a b = false) : a ≠ b := by
  intro he
  rw [he] at h
  rw [Json.beq_refl b] at h
  exact Bool.noConfusion h

mutual
theorem Json.sortKeys_canonical_id : ∀ j : Json, Json.canonical j = true → sortKeysJ j = j
  | .null, _ => rfl
  | .bool b, _ => rfl
  | .num q, _ => rfl
  | .str s, _ => rfl
  | .arr l, h => by
    have := Json.sortKeysArr_canonical_id l (by simpa [Json.canonical] using h)
    simp [sortKeysJ, this]
  | .obj l, h => by
    have h' : keysSortedStrict l = true ∧ Json.canonicalObj l = true := by
      simpa [Json.canonical] using h
    have h2 := Json.sortKeysObj_canonical_id l h'.2
    simp [sortKeysJ, h2, sortPairs_id l h'.1]

theorem Json.sortKeysArr_canonical_id :
    ∀ l : List Json, Json.canonicalArr l = true → sortKeysArr l = l
  | [], _ => rfl
  | j :: t, h => by
    have h' : Json.canonical j = true ∧ Json.canonicalArr t = true := by
      simpa [Json.canonicalArr] using h
    simp [sortKeysArr, Json.sortKeys_canonical_id j h'.1,
      Json.sortKeysArr_canonical_id t h'.2]

theorem Json.sortKeysObj_canonical_id :
    ∀ l : List (Str × Json), Json.canonicalObj l = true → sortKeysObj l = l
  | [], _ => rfl
  | (k, v) :: t, h => by
    have h' : Json.canonical v = true ∧ Json.canonicalObj t = true := by
      simpa [Json.canonicalObj] using h
    simp [sortKeysObj, Json.sortKeys_canonical_id v h'.1,
      Json.sortKeysObj_canonical_id t h'.2]
end

theorem mapO_map_id {α β : Type} (f : β → Option α) (g : α → β) :
    ∀ l : List α, (∀ a ∈ l, f (g a) = some a) → mapO f (l.map g) = some l := by
  intro l
  induction l with
  | nil => intro _; rfl
  | cons a t ih =>
    intro h
    simp only [List.map_cons, mapO, h a (List.mem_cons_self a t),
      ih (fun x hx => h x (List.mem_cons_of_mem a hx))]

theorem prefix_drop_eq (l s : Str) (h : l.isPrefixOf s = true) :
    s = l ++ s.drop l.length := by
  obtain ⟨t, ht⟩ := List.isPrefixOf_iff_prefix.mp h
  subst ht
  rw [List.drop_left]

theorem isPrefixOf_append_self (l t : Str) : l.isPrefixOf (l ++ t) = true :=
  List.isPrefixOf_iff_prefix.mpr (List.prefix_append l t)

theorem isPrefixOf_length_le {l s : Str} (h : l.isPrefixOf s = true) :
    l.length ≤ s.length :=
  (List.isPrefixOf_iff_prefix.mp h).length_le

/-- Claim C2: for every store and reference, `ReadBlob` returns bytes only
when their recomputed reference equals the requested one; an absent blob file
(for a parseable reference) fails with the blob-not-found error; stored bytes
hashing differently fail with the integrity error, returning no bytes. -/
theorem C2_readblob_contract (H : Data → Str) (st : ObjectStore) (r : Str) :
    (∀ b, ReadBlob H st r = .ok b → HashContent H b = r)
  ∧ (∀ hexPath, blobPath r = .ok hexPath → lookupKey hexPath st = none →
      ReadBlob H st r = .error (.notFound (ShortHash r 12)))
  ∧ (∀ hexPath d, blobPath r = .ok hexPath → lookupKey hexPath st = some d →
      HashContent H d ≠ r →
      ReadBlob H st r =
        .error (.integrity (ShortHash r 12) (ShortHash (HashContent H d) 12))) := by
  refine ⟨?_, ?_, ?_⟩
  · intro b h
    unfold ReadBlob at h
    split at h
    · exact absurd h (by simp)
    · split at h
      · exact absurd h (by simp)
      · dsimp only at h
        split at h
        · exact absurd h (by simp)
        · simp only [Except.ok.injEq] at h
          subst h
          rename_i hne
          exact not_ne_iff.mp hne
  · intro hexPath hbp hlk
    unfold ReadBlob
    rw [hbp]
    dsimp only
    rw [hlk]
  · intro hexPath d hbp hlk hc
    unfold ReadBlob
    rw [hbp]
    dsimp only
    rw [hlk]
    dsimp only
    rw [if_pos hc]

/-- Witness for C2 at a concrete store: the all-zero reference is absent from
the empty store and fails with blob-not-found. -/
theorem C2_witness :
    ReadBlob c0H [] (hashScheme ++ List.replicate 64 '0')
      = .error (.notFound (ShortHash (hashScheme ++ List.replicate 64 '0') 12)) :=
  (C2_readblob_contract c0H [] (hashScheme ++ List.replicate 64 '0')).2.1
    (List.replicate 64 '0') rfl rfl

theorem validateHash_true_iff (ref : Str) :
    ValidateHash ref = true ↔
      hashScheme.isPrefixOf ref = true ∧
      (ref.drop hashScheme.length).length = 64 ∧
      decodeHexOk (ref.drop hashScheme.length) = true := by
  unfold ValidateHash ParseHash
  by_cases h1 : hashScheme.isPrefixOf ref = true
  · rw [if_pos h1]
    dsimp only
    by_cases h2 : ref.length - hashScheme.length = 64
    · by_cases h3 : decodeHexOk (ref.drop hashScheme.length) = true
      · simp [Except.toBool, h1, h2, h3]
      · simp [Except.toBool, h1, h2, h3]
    · simp [Except.toBool, h1, h2]
  · simp [Except.toBool, h1]

theorem decodeHexOk_all {s : Str} (h : decodeHexOk s = true) :
    s.all isHexDigitChar = true := by
  unfold decodeHexOk at h
  exact (Bool.and_eq_true_iff.mp h).2

/-- Counterexample to claim C8 as stated: the plain 64-character upper-case
hex string `AAA…A` is accepted by `NormalizeHash`, and the hex portion of the
returned reference is not lower-case (it is returned verbatim). -/
theorem C8_counterexample :
    NormalizeHash (List.replicate 64 'A') = .ok (hashScheme ++ List.replicate 64 'A') ∧
    ((hashScheme ++ List.replicate 64 'A').drop hashScheme.length).all
      (fun c => c.toLower = c) = false := by
  constructor
  · decide
  · decide

/-- Claim C8 as amended: an accepted input (full reference or plain 64-hex,
hex digits of either case) yields a `sha256:`-prefixed reference whose
64-character hex portion is the input's hex portion verbatim; an input that
validates neither as a full reference nor as plain 64-hex is rejected. -/
theorem C8_normalize_amended (s : Str) :
    (∀ r, NormalizeHash s = .ok r → ∃ h, r = hashScheme ++ h ∧ h.length = 64 ∧
        h.all isHexDigitChar = true ∧ (s = hashScheme ++ h ∨ s = h))
  ∧ (ValidateHash s = false → ValidateHash (hashScheme ++ s) = false →
      ∃ e, NormalizeHash s = .error e) := by
  constructor
  · intro r h
    unfold NormalizeHash at h
    by_cases h1 : hashScheme.isPrefixOf s = true
    · rw [if_pos h1] at h
      by_cases h2 : ValidateHash s = true
      · rw [if_pos h2] at h
        simp only [Except.ok.injEq] at h
        subst h
        obtain ⟨hpre, hlen, hhex⟩ := (validateHash_true_iff s).mp h2
        refine ⟨s.drop hashScheme.length, prefix_drop_eq _ _ hpre, hlen,
          decodeHexOk_all hhex, Or.inl (prefix_drop_eq _ _ hpre)⟩
      · rw [if_neg h2] at h
        exact absurd h (by simp)
    · rw [if_neg h1] at h
      dsimp only at h
      by_cases h3 : ValidateHash (hashScheme ++ s) = true
      · rw [if_pos h3] at h
        simp only [Except.ok.injEq] at h
        subst h
        obtain ⟨hpre, hlen, hhex⟩ := (validateHash_true_iff (hashScheme ++ s)).mp h3
        rw [List.drop_left] at hlen hhex
        exact ⟨s, rfl, hlen, decodeHexOk_all hhex, Or.inr rfl⟩
      · rw [if_neg h3] at h
        exact absurd h (by simp)
  · intro hv1 hv2
    unfold NormalizeHash
    by_cases h1 : hashScheme.isPrefixOf s = true
    · rw [if_pos h1, if_neg (by simp [hv1])]
      exact ⟨.invalidRef, rfl⟩
    · rw [if_neg h1]
      dsimp only
      rw [if_neg (by simp [hv2])]
      exact ⟨.invalidPlain, rfl⟩

/-- Witness for the amended C8 at the plain lower-case input `fff…f`. -/
theorem C8_witness :
    ∃ h, (hashScheme ++ List.replicate 64 'f') = hashScheme ++ h ∧ h.length = 64 ∧
      h.all isHexDigitChar = true ∧
      (List.replicate 64 'f' = hashScheme ++ h ∨ List.replicate 64 'f' = h) :=
  (C8_normalize_amended (List.replicate 64 'f')).1
    (hashScheme ++ List.replicate 64 'f') (by decide)

theorem hex_not_hashScheme {s : Str} (hhex : s.all isHexDigitChar = true) :
    hashScheme.isPrefixOf s = false := by
  by_cases h : hashScheme.isPrefixOf s = true
  · obtain ⟨t', ht⟩ := List.isPrefixOf_iff_prefix.mp h
    subst ht
    rw [List.all_append] at hhex
    have h1 : hashScheme.all isHexDigitChar = true := (Bool.and_eq_true_iff.mp hhex).1
    exact absurd h1 (by decide)
  · exact Bool.not_eq_true _ ▸ (Bool.eq_false_iff.mpr h)

theorem hex_not_ctxScheme {s : Str} (hhex : s.all isHexDigitChar = true) :
    ctxScheme.isPrefixOf s = false := by
  by_cases h : ctxScheme.isPrefixOf s = true
  · obtain ⟨t', ht⟩ := List.isPrefixOf_iff_prefix.mp h
    subst ht
    rw [List.all_append] at hhex
    have h1 : ctxScheme.all isHexDigitChar = true := (Bool.and_eq_true_iff.mp hhex).1
    exact absurd h1 (by decide)
  · exact Bool.not_eq_true _ ▸ (Bool.eq_false_iff.mpr h)

theorem stripCtx_of_hex {s : Str} (hhex : s.all isHexDigitChar = true) :
    stripCtxScheme s = s := by
  unfold stripCtxScheme
  rw [hex_not_ctxScheme hhex]
  simp

theorem normalize_ok_of_hex64 {s : Str} (hhex : s.all isHexDigitChar = true)
    (hlen : s.length = 64) : NormalizeHash s = .ok (hashScheme ++ s) := by
  unfold NormalizeHash
  rw [hex_not_hashScheme hhex]
  simp only [Bool.false_eq_true, if_false]
  rw [if_pos]
  exact (validateHash_true_iff (hashScheme ++ s)).mpr
    ⟨isPrefixOf_append_self _ _, by rw [List.drop_left]; exact hlen,
     by rw [List.drop_left]; unfold decodeHexOk; rw [hlen, hhex]; rfl⟩

theorem normalize_err_of_hex_ne64 {s : Str} (hhex : s.all isHexDigitChar = true)
    (hlen : s.length ≠ 64) : NormalizeHash s = .error .invalidPlain := by
  unfold NormalizeHash
  rw [hex_not_hashScheme hhex]
  simp only [Bool.false_eq_true, if_false]
  rw [if_neg]
  intro hv
  obtain ⟨_, hl, _⟩ := (validateHash_true_iff (hashScheme ++ s)).mp hv
  rw [List.drop_left] at hl
  exact hlen hl

/-- Claim C10: for a syntactically valid full-length input (optionally
`ctx://`-stripped), `ResolveHash` succeeds with the normalized reference for
every registry state, including the empty one; and for any input whose
stripped form is at least 64 characters long the result is independent of the
registry (only shorter inputs are matched against it). -/
theorem C10_resolve_full_length (input : Str) :
    (∀ r, NormalizeHash (stripCtxScheme input) = .ok r →
        ∀ packs : List Str, ResolveHash packs input = .ok r)
  ∧ (∀ packs1 packs2 : List Str, (∀ n ∈ packs1, n.length = 64) →
      (∀ n ∈ packs2, n.length = 64) → 64 ≤ (stripCtxScheme input).length →
      ResolveHash packs1 input = ResolveHash packs2 input) := by
  constructor
  · intro r h packs
    simp only [ResolveHash]
    rw [h]
  · intro packs1 packs2 hp1 hp2 hlen
    simp only [ResolveHash]
    cases hn : NormalizeHash (stripCtxScheme input) with
    | ok r => rfl
    | error e =>
      dsimp only
      by_cases hhex : isHexString (stripCtxScheme input) = true
      · have hgt : 64 < (stripCtxScheme input).length := by
          rcases Nat.lt_or_ge 64 (stripCtxScheme input).length with h | h
          · exact h
          · exfalso
            have h64 : (stripCtxScheme input).length = 64 := le_antisymm h hlen
            have hall : (stripCtxScheme input).all isHexDigitChar = true :=
              (Bool.and_eq_true_iff.mp hhex).2
            rw [normalize_ok_of_hex64 hall h64] at hn
            exact Except.noConfusion hn
        have hfil : ∀ packs : List Str, (∀ n ∈ packs, n.length = 64) →
            packs.filter (fun name => (stripCtxScheme input).isPrefixOf name) = [] := by
          intro packs hp
          rw [List.filter_eq_nil_iff]
          intro n hm hpre
          have := isPrefixOf_length_le (by simpa using hpre)
          rw [hp n hm] at this
          exact absurd (lt_of_lt_of_le hgt this) (lt_irrefl _)
        have hc1 : ¬ (¬ isHexString (stripCtxScheme input) = true) := by simp [hhex]
        have hc2 : ¬ ((stripCtxScheme input).length < 4) :=
          Nat.not_lt.mpr (le_trans (show (4 : ℕ) ≤ 64 by norm_num) hlen)
        simp only [if_neg hc1, if_neg hc2, hfil packs1 hp1, hfil packs2 hp2]
      · simp only [if_pos (show ¬ isHexString (stripCtxScheme input) = true from hhex)]

/-- Witness for C10: a plain 64-hex input resolves against a foreign registry
without consulting it. -/
theorem C10_witness :
    ResolveHash [List.replicate 64 '1'] (List.replicate 64 '2')
      = .ok (hashScheme ++ List.replicate 64 '2') :=
  (C10_resolve_full_length (List.replicate 64 '2')).1
    (hashScheme ++ List.replicate 64 '2') (by decide) [List.replicate 64 '1']

theorem filter_eq_singleton_of {α : Type} (l : List α) (p : α → Bool) (a : α)
    (hnod : l.Nodup) (ha : a ∈ l) (hpa : p a = true)
    (hother : ∀ b ∈ l, b ≠ a → p b = false) : l.filter p = [a] := by
  induction l with
  | nil => cases ha
  | cons x t ih =>
    rcases List.mem_cons.mp ha with rfl | hat
    · rw [List.filter_cons_of_pos hpa]
      have ht : t.filter p = [] := by
        rw [List.filter_eq_nil_iff]
        intro b hb
        have hbne : b ≠ a := fun he => (List.nodup_cons.mp hnod).1 (he ▸ hb)
        simp [hother b (List.mem_cons_of_mem _ hb) hbne]
      rw [ht]
    · have hx : x ≠ a := fun he => (List.nodup_cons.mp hnod).1 (he ▸ hat)
      rw [List.filter_cons_of_neg (by simp [hother x (List.mem_cons_self x t) hx])]
      exact ih (List.nodup_cons.mp hnod).2 hat
        (fun b hb hne => hother b (List.mem_cons_of_mem _ hb) hne)

theorem two_le_length_of_mem {α : Type} {l : List α} {a b : α}
    (ha : a ∈ l) (hb : b ∈ l) (hne : a ≠ b) : 2 ≤ l.length := by
  cases l with
  | nil => cases ha
  | cons x t =>
    cases t with
    | nil =>
      rw [List.mem_singleton] at ha hb
      exact absurd (ha.trans hb.symm) hne
    | cons y u =>
      simp only [List.length_cons]
      omega

/-- Claim C3: for a registered pack and a hex prefix of its name with length
in `[4, 64)`, `ResolveHash` returns the pack's full reference when no other
registered name shares the prefix, fails `ambiguous` when a second one does,
and fails not-found when nothing matches. -/
theorem C3_prefix_resolution (packs : List Str) (q : Str)
    (hnod : packs.Nodup) (hqhex : q.all isHexDigitChar = true)
    (h4 : 4 ≤ q.length) (h64 : q.length < 64) :
    (∀ name ∈ packs, q.isPrefixOf name = true →
       (∀ other ∈ packs, other ≠ name → q.isPrefixOf other = false) →
       ResolveHash packs q = .ok (hashScheme ++ name))
  ∧ (∀ name ∈ packs, ∀ other ∈ packs, name ≠ other →
       q.isPrefixOf name = true → q.isPrefixOf other = true →
       ∃ n, ResolveHash packs q = .error (.ambiguous n) ∧ 2 ≤ n)
  ∧ ((∀ name ∈ packs, q.isPrefixOf name = false) →
       ResolveHash packs q = .error .notFound) := by
  have hstrip : stripCtxScheme q = q := stripCtx_of_hex hqhex
  have hnorm := normalize_err_of_hex_ne64 hqhex (Nat.ne_of_lt h64)
  have hne : q ≠ [] := by
    intro he
    rw [he] at h4
    exact absurd h4 (by norm_num)
  have hhexs : isHexString q = true := by
    unfold isHexString
    rw [hqhex]
    cases q with
    | nil => exact absurd rfl hne
    | cons c t => rfl
  have hred : ResolveHash packs q =
      (match (packs.filter (fun name => q.isPrefixOf name)).map
          (fun name => hashScheme ++ name) with
        | [] => .error .notFound
        | [m] => .ok m
        | ms => .error (.ambiguous ms.length)) := by
    simp only [ResolveHash, hstrip, hnorm]
    rw [if_neg (by simp [hhexs]), if_neg (Nat.not_lt.mpr h4)]
  refine ⟨?_, ?_, ?_⟩
  · intro name hmem hpre hother
    rw [hred, filter_eq_singleton_of packs _ name hnod hmem hpre hother]
    rfl
  · intro name hmem other homem hneq hpre hopre
    have hmf1 : name ∈ packs.filter (fun n => q.isPrefixOf n) :=
      List.mem_filter.mpr ⟨hmem, hpre⟩
    have hmf2 : other ∈ packs.filter (fun n => q.isPrefixOf n) :=
      List.mem_filter.mpr ⟨homem, hopre⟩
    have h2 : 2 ≤ (packs.filter (fun n => q.isPrefixOf n)).length :=
      two_le_length_of_mem hmf1 hmf2 hneq
    rw [hred]
    cases hf : packs.filter (fun n => q.isPrefixOf n) with
    | nil => rw [hf] at h2; exact absurd h2 (by norm_num)
    | cons m1 t =>
      cases t with
      | nil => rw [hf] at h2; exact absurd h2 (by norm_num)
      | cons m2 u =>
        refine ⟨((m1 :: m2 :: u).map (fun name => hashScheme ++ name)).length, rfl, ?_⟩
        simp only [List.length_map, List.length_cons]
        omega
  · intro hnone
    rw [hred, List.filter_eq_nil_iff.mpr (by intro n hn; simp [hnone n hn])]
    rfl

/-- Witness for C3: a four-character prefix resolving uniquely in a
two-entry registry. -/
theorem C3_witness :
    ResolveHash [List.replicate 64 'a', List.replicate 64 'b'] (List.replicate 4 'a')
      = .ok (hashScheme ++ List.replicate 64 'a') :=
  (C3_prefix_resolution [List.replicate 64 'a', List.replicate 64 'b']
      (List.replicate 4 'a') (by decide) (by decide) (by decide) (by decide)).1
    (List.replicate 64 'a') (by decide) (by decide) (by decide)

theorem executeStep_det (H : Data → Str) (fs : FileSys)
    (executors : List (Str × ToolExecutor)) (s : Step) :
    (ExecuteStep H fs executors s).deterministic = s.deterministic := by
  unfold ExecuteStep
  cases hlk : lookupKey s.tool executors with
  | none => rfl
  | some ex =>
    dsimp only
    cases hr : ex fs s.tool s.parameters with
    | error e => rfl
    | ok out =>
      dsimp only
      by_cases hh : HashContent H (.bytes out) = s.outputRef
      · rw [if_pos hh]
      · rw [if_neg hh]

theorem executeStep_failed_iff (H : Data → Str) (fs : FileSys)
    (executors : List (Str × ToolExecutor)) (s : Step) :
    (ExecuteStep H fs executors s).status = .failed ↔
      lookupKey s.tool executors = none ∨
      ∃ ex, lookupKey s.tool executors = some ex ∧
        ∃ e, ex fs s.tool s.parameters = .error e := by
  unfold ExecuteStep
  cases hlk : lookupKey s.tool executors with
  | none => exact iff_of_true rfl (Or.inl rfl)
  | some ex =>
    dsimp only
    cases hr : ex fs s.tool s.parameters with
    | error e => exact iff_of_true rfl (Or.inr ⟨ex, rfl, e, hr⟩)
    | ok out =>
      dsimp only
      have hrhs : ¬ (some ex = none ∨
          ∃ ex', some ex = some ex' ∧ ∃ e, ex' fs s.tool s.parameters = .error e) := by
        rintro (hnone | ⟨ex', hex', e, herr⟩)
        · exact Option.noConfusion hnone
        · rw [Option.some.injEq] at hex'
          subst hex'
          rw [hr] at herr
          exact Except.noConfusion herr
      by_cases hh : HashContent H (.bytes out) = s.outputRef
      · rw [if_pos hh]
        exact iff_of_false (by simp) hrhs
      · rw [if_neg hh]
        exact iff_of_false (by simp) hrhs

theorem executeStep_diverged_iff (H : Data → Str) (fs : FileSys)
    (executors : List (Str × ToolExecutor)) (s : Step) :
    (ExecuteStep H fs executors s).status = .diverged ↔
      ∃ out, (∃ ex, lookupKey s.tool executors = some ex ∧
        ex fs s.tool s.parameters = .ok out) ∧
      HashContent H (.bytes out) ≠ s.outputRef := by
  unfold ExecuteStep
  cases hlk : lookupKey s.tool executors with
  | none =>
    refine iff_of_false (by simp) ?_
    rintro ⟨out, ⟨ex, hex, _⟩, _⟩
    exact Option.noConfusion hex
  | some ex =>
    dsimp only
    cases hr : ex fs s.tool s.parameters with
    | error e =>
      refine iff_of_false (by simp) ?_
      rintro ⟨out, ⟨ex', hex', hok⟩, _⟩
      rw [Option.some.injEq] at hex'
      subst hex'
      rw [hr] at hok
      exact Except.noConfusion hok
    | ok out =>
      dsimp only
      by_cases hh : HashContent H (.bytes out) = s.outputRef
      · rw [if_pos hh]
        refine iff_of_false (by simp) ?_
        rintro ⟨out', ⟨ex', hex', hok⟩, hne⟩
        rw [Option.some.injEq] at hex'
        subst hex'
        rw [hr, Except.ok.injEq] at hok
        subst hok
        exact hne hh
      · rw [if_neg hh]
        exact iff_of_true rfl ⟨out, ⟨ex, rfl, hr⟩, hh⟩

theorem fidelityOf_cases (results : List StepResult) :
    (fidelityOf results = .failed ↔
       results.any (fun r => r.status = .failed) = true)
  ∧ (fidelityOf results = .degraded ↔
       results.any (fun r => r.status = .failed) = false ∧
       results.any (fun r => r.status = .diverged ∧ r.deterministic) = true)
  ∧ (fidelityOf results = .exact ↔
       results.any (fun r => r.status = .failed) = false ∧
       results.any (fun r => r.status = .diverged ∧ r.deterministic) = false) := by
  unfold fidelityOf
  by_cases h1 : results.any (fun r => r.status = .failed) = true
  · rw [if_pos h1]
    refine ⟨iff_of_true rfl h1, iff_of_false (by decide) ?_, iff_of_false (by decide) ?_⟩
    · rintro ⟨hf, _⟩
      rw [h1] at hf
      exact Bool.noConfusion hf
    · rintro ⟨hf, _⟩
      rw [h1] at hf
      exact Bool.noConfusion hf
  · have h1f := Bool.eq_false_iff.mpr h1
    rw [if_neg h1]
    by_cases h2 : results.any (fun r => r.status = .diverged ∧ r.deterministic) = true
    · rw [if_pos h2]
      refine ⟨iff_of_false (by decide) h1, iff_of_true rfl ⟨h1f, h2⟩,
        iff_of_false (by decide) ?_⟩
      rintro ⟨_, hd⟩
      rw [h2] at hd
      exact Bool.noConfusion hd
    · have h2f := Bool.eq_false_iff.mpr h2
      rw [if_neg h2]
      exact ⟨iff_of_false (by decide) h1,
        iff_of_false (by decide) (fun hc => h2 hc.2),
        iff_of_true rfl ⟨h1f, h2f⟩⟩

/-- Claim C4: the replay verdict is `failed` iff some step's executor errored
or was unregistered (step status `failed`), otherwise `degraded` iff some
deterministic step produced output hashing differently from the recorded
`output_ref` (status `diverged`), otherwise `exact`; in particular a replay
whose only divergent steps are non-deterministic is `exact`.  The fourth and
fifth conjuncts identify step status `failed` with executor absence/error and
step status `diverged` with an output-hash mismatch. -/
theorem C4_replay_fidelity (H : Data → Str) (objects : ObjectStore)
    (fs : FileSys) (currentOS : Str) (p : Pack) :
    ((replayLoaded H objects fs currentOS p).fidelity = .failed ↔
       ∃ s ∈ p.steps, (ExecuteStep H fs DefaultExecutors s).status = .failed)
  ∧ ((replayLoaded H objects fs currentOS p).fidelity = .degraded ↔
       (¬ ∃ s ∈ p.steps, (ExecuteStep H fs DefaultExecutors s).status = .failed) ∧
       ∃ s ∈ p.steps, s.deterministic = true ∧
         (ExecuteStep H fs DefaultExecutors s).status = .diverged)
  ∧ ((replayLoaded H objects fs currentOS p).fidelity = .exact ↔
       (¬ ∃ s ∈ p.steps, (ExecuteStep H fs DefaultExecutors s).status = .failed) ∧
       ¬ ∃ s ∈ p.steps, s.deterministic = true ∧
         (ExecuteStep H fs DefaultExecutors s).status = .diverged)
  ∧ (∀ s : Step, ((ExecuteStep H fs DefaultExecutors s).status = .failed ↔
       lookupKey s.tool DefaultExecutors = none ∨
       ∃ ex, lookupKey s.tool DefaultExecutors = some ex ∧
         ∃ e, ex fs s.tool s.parameters = .error e))
  ∧ (∀ s : Step, ((ExecuteStep H fs DefaultExecutors s).status = .diverged ↔
       ∃ out, (∃ ex, lookupKey s.tool DefaultExecutors = some ex ∧
         ex fs s.tool s.parameters = .ok out) ∧
       HashContent H (.bytes out) ≠ s.outputRef))
  ∧ ((∀ s ∈ p.steps, (ExecuteStep H fs DefaultExecutors s).status ≠ .failed ∧
        ((ExecuteStep H fs DefaultExecutors s).status = .diverged →
          s.deterministic = false)) →
      (replayLoaded H objects fs currentOS p).fidelity = .exact) := by
  have hfid : (replayLoaded H objects fs currentOS p).fidelity =
      fidelityOf (p.steps.map (ExecuteStep H fs DefaultExecutors)) := rfl
  have hc := fidelityOf_cases (p.steps.map (ExecuteStep H fs DefaultExecutors))
  have hany1 : ((p.steps.map (ExecuteStep H fs DefaultExecutors)).any
      (fun r => r.status = .failed) = true) ↔
      ∃ s ∈ p.steps, (ExecuteStep H fs DefaultExecutors s).status = .failed := by
    rw [List.any_eq_true]
    constructor
    · rintro ⟨r, hr, hp⟩
      obtain ⟨s, hs, rfl⟩ := List.mem_map.mp hr
      exact ⟨s, hs, of_decide_eq_true hp⟩
    · rintro ⟨s, hs, hp⟩
      exact ⟨ExecuteStep H fs DefaultExecutors s, List.mem_map_of_mem _ hs,
        decide_eq_true hp⟩
  have hany2 : ((p.steps.map (ExecuteStep H fs DefaultExecutors)).any
      (fun r => r.status = .diverged ∧ r.deterministic) = true) ↔
      ∃ s ∈ p.steps, s.deterministic = true ∧
        (ExecuteStep H fs DefaultExecutors s).status = .diverged := by
    rw [List.any_eq_true]
    constructor
    · rintro ⟨r, hr, hp⟩
      obtain ⟨s, hs, rfl⟩ := List.mem_map.mp hr
      have hp' : (ExecuteStep H fs DefaultExecutors s).status = .diverged ∧
          (ExecuteStep H fs DefaultExecutors s).deterministic = true :=
        of_decide_eq_true hp
      refine ⟨s, hs, ?_, hp'.1⟩
      rw [← executeStep_det H fs DefaultExecutors s]
      exact hp'.2
    · rintro ⟨s, hs, hdet, hdiv⟩
      refine ⟨ExecuteStep H fs DefaultExecutors s, List.mem_map_of_mem _ hs,
        decide_eq_true ⟨hdiv, ?_⟩⟩
      rw [executeStep_det H fs DefaultExecutors s]
      exact hdet
  refine ⟨?_, ?_, ?_, fun s => executeStep_failed_iff H fs DefaultExecutors s,
    fun s => executeStep_diverged_iff H fs DefaultExecutors s, ?_⟩
  · rw [hfid, hc.1, hany1]
  · rw [hfid, hc.2.1, Bool.eq_false_iff, Ne, hany1, hany2]
  · rw [hfid, hc.2.2, Bool.eq_false_iff, Ne, hany1, Bool.eq_false_iff, Ne, hany2]
  · intro hall
    rw [hfid, hc.2.2, Bool.eq_false_iff, Ne, hany1, Bool.eq_false_iff, Ne, hany2]
    constructor
    · rintro ⟨s, hs, hfail⟩
      exact (hall s hs).1 hfail
    · rintro ⟨s, hs, hdet, hdiv⟩
      rw [(hall s hs).2 hdiv] at hdet
      exact Bool.noConfusion hdet

/-- Witness for C4: a replay whose single step is non-deterministic and
diverges is `exact`. -/
theorem C4_witness :
    (replayLoaded cabH [] c4Fs (ks "linux") c4Pack).fidelity = .exact :=
  (C4_replay_fidelity cabH [] c4Fs (ks "linux") c4Pack).2.2.2.2.2 (by decide)

/-- Claim C9 (implicit): the fidelity verdict is a function of the per-step
results alone — it is independent of the object store; a recorded input whose
blob is absent contributes a `missing_input` drift entry; and a replay with
all steps matched reports `exact` whatever blobs the store is missing. -/
theorem C9_missing_inputs_never_change_fidelity (H : Data → Str)
    (objects objects' : ObjectStore) (fs : FileSys) (currentOS : Str) (p : Pack) :
    ((replayLoaded H objects fs currentOS p).fidelity =
       (replayLoaded H objects' fs currentOS p).fidelity)
  ∧ (∀ i ∈ p.inputs, BlobExists objects i.contentRef = false →
       DriftEntry.missingInput i.name (ShortHash i.contentRef 12) ∈
         (replayLoaded H objects fs currentOS p).drift)
  ∧ ((∀ s ∈ p.steps, (ExecuteStep H fs DefaultExecutors s).status = .matched) →
       (replayLoaded H objects fs currentOS p).fidelity = .exact) := by
  refine ⟨rfl, ?_, ?_⟩
  · intro i hi hmiss
    have hdrift : (replayLoaded H objects fs currentOS p).drift =
        checkEnvironmentDrift p currentOS ++ missingInputDrift objects p.inputs := rfl
    rw [hdrift]
    refine List.mem_append_right _ ?_
    unfold missingInputDrift
    refine List.mem_filterMap.mpr ⟨i, hi, ?_⟩
    rw [hmiss]
    rfl
  · intro hall
    have hc := fidelityOf_cases (p.steps.map (ExecuteStep H fs DefaultExecutors))
    have hfid : (replayLoaded H objects fs currentOS p).fidelity =
        fidelityOf (p.steps.map (ExecuteStep H fs DefaultExecutors)) := rfl
    rw [hfid, hc.2.2]
    constructor
    · rw [Bool.eq_false_iff, Ne, List.any_eq_true]
      rintro ⟨r, hr, hp⟩
      obtain ⟨s, hs, rfl⟩ := List.mem_map.mp hr
      have := of_decide_eq_true hp
      rw [hall s hs] at this
      exact StepStatus.noConfusion this
    · rw [Bool.eq_false_iff, Ne, List.any_eq_true]
      rintro ⟨r, hr, hp⟩
      obtain ⟨s, hs, rfl⟩ := List.mem_map.mp hr
      have := (of_decide_eq_true hp).1
      rw [hall s hs] at this
      exact StepStatus.noConfusion this

/-- Witness for C9: a pack with one input whose blob is absent from the empty
store replays `exact` and reports the `missing_input` drift entry. -/
theorem C9_witness :
    DriftEntry.missingInput (ks "i")
        (ShortHash (hashScheme ++ List.replicate 64 'e') 12) ∈
      (replayLoaded cabH [] c4Fs (ks "linux") c9Pack).drift ∧
    (replayLoaded cabH [] c4Fs (ks "linux") c9Pack).fidelity = .exact :=
  ⟨(C9_missing_inputs_never_change_fidelity cabH [] [] c4Fs (ks "linux") c9Pack).2.1
      { name := ks "i", contentRef := hashScheme ++ List.replicate 64 'e', size := 2 }
      (by decide) (by decide),
   (C9_missing_inputs_never_change_fidelity cabH [] [] c4Fs (ks "linux") c9Pack).2.2
      (by decide)⟩

theorem lookupKey_append {β : Type} (k : Str) (l1 l2 : List (Str × β)) :
    lookupKey k (l1 ++ l2) =
      (match lookupKey k l1 with
       | some v => some v
       | none => lookupKey k l2) := by
  induction l1 with
  | nil => simp [lookupKey]
  | cons p t ih =>
    by_cases h : k = p.1
    · simp [lookupKey, h]
    · simp [lookupKey, h, ih]

theorem insertRep_of_lookup_none {β : Type} (k : Str) (v : β) (m : List (Str × β))
    (h : lookupKey k m = none) : insertRep k v m = m ++ [(k, v)] := by
  induction m with
  | nil => rfl
  | cons p t ih =>
    unfold lookupKey at h
    by_cases hk : k = p.1
    · rw [if_pos hk] at h
      exact absurd h (by simp)
    · rw [if_neg hk] at h
      unfold insertRep
      rw [if_neg hk, ih h]
      rfl

theorem lookupKey_map_pair_none {β : Type} (key : β → Str) (k : Str) (l : List β) :
    lookupKey k (l.map (fun f => (key f, f))) = none ↔ k ∉ l.map key := by
  induction l with
  | nil => simp [lookupKey]
  | cons f t ih =>
    by_cases h : k = key f
    · simp [lookupKey, h]
    · simp only [List.map_cons, lookupKey, if_neg h, ih, List.mem_cons]
      constructor
      · intro hn hc
        rcases hc with hc | hc
        · exact h hc
        · exact hn hc
      · intro hn
        exact fun hc => hn (Or.inr hc)

theorem lookupKey_map_pair_some {β : Type} (key : β → Str) (k : Str) (l : List β)
    (hnod : (l.map key).Nodup) (v : β) :
    lookupKey k (l.map (fun f => (key f, f))) = some v ↔ (v ∈ l ∧ key v = k) := by
  induction l with
  | nil => simp [lookupKey]
  | cons f t ih =>
    rw [List.map_cons, List.nodup_cons] at hnod
    by_cases h : k = key f
    · simp only [List.map_cons, lookupKey, if_pos h, Option.some.injEq, List.mem_cons]
      constructor
      · rintro rfl
        exact ⟨Or.inl rfl, h.symm⟩
      · rintro ⟨hv | hv, hk⟩
        · exact hv.symm
        · exfalso
          apply hnod.1
          rw [← h, ← hk]
          exact List.mem_map_of_mem key hv
    · simp only [List.map_cons, lookupKey, if_neg h, ih hnod.2, List.mem_cons]
      constructor
      · rintro ⟨hv, hk⟩
        exact ⟨Or.inr hv, hk⟩
      · rintro ⟨hv | hv, hk⟩
        · exact absurd (hk ▸ rfl) (hv ▸ h)
        · exact ⟨hv, hk⟩

theorem foldl_insertRep_eq {β : Type} (key : β → Str) :
    ∀ (l : List β) (acc : List (Str × β)),
      (∀ f ∈ l, lookupKey (key f) acc = none) → (l.map key).Nodup →
      l.foldl (fun m f => insertRep (key f) f m) acc =
        acc ++ l.map (fun f => (key f, f)) := by
  intro l
  induction l with
  | nil => intro acc _ _; simp
  | cons f t ih =>
    intro acc hnone hnod
    rw [List.map_cons, List.nodup_cons] at hnod
    have h1 : lookupKey (key f) acc = none := hnone f (List.mem_cons_self f t)
    have hnone' : ∀ g ∈ t, lookupKey (key g) (acc ++ [(key f, f)]) = none := by
      intro g hg
      have hfneq : ¬ (key g = key f) := by
        intro hc
        apply hnod.1
        rw [← hc]
        exact List.mem_map_of_mem key hg
      rw [lookupKey_append, hnone g (List.mem_cons_of_mem f hg)]
      dsimp only
      unfold lookupKey
      rw [if_neg hfneq]
      rfl
    rw [List.foldl_cons, insertRep_of_lookup_none _ _ _ h1,
      ih (acc ++ [(key f, f)]) hnone' hnod.2]
    simp

theorem buildMap_eq_of_nodup {β : Type} (key : β → Str) (l : List β)
    (hnod : (l.map key).Nodup) :
    buildMap key l = l.map (fun f => (key f, f)) := by
  unfold buildMap
  rw [foldl_insertRep_eq key l [] (fun f _ => rfl) hnod]
  rfl

theorem mem_keys_insertRep {β : Type} (x k : Str) (v : β) :
    ∀ m : List (Str × β),
      (x ∈ (insertRep k v m).map Prod.fst ↔ x = k ∨ x ∈ m.map Prod.fst)
  | [] => by
    simp only [insertRep, List.map_cons, List.map_nil, List.mem_singleton,
      List.not_mem_nil, or_false]
  | (pk, pv) :: t => by
    by_cases h : k = pk
    · subst h
      simp only [insertRep, if_true, List.map_cons, List.mem_cons]
      tauto
    · simp only [insertRep, if_neg h, List.map_cons, List.mem_cons,
        mem_keys_insertRep x k v t]
      tauto

theorem nodup_keys_insertRep {β : Type} (k : Str) (v : β) :
    ∀ m : List (Str × β),
      (m.map Prod.fst).Nodup → ((insertRep k v m).map Prod.fst).Nodup
  | [] => fun _ => by
    simp only [insertRep, List.map_cons, List.map_nil]
    exact List.nodup_singleton k
  | (pk, pv) :: t => fun hnod => by
    rw [List.map_cons, List.nodup_cons] at hnod
    by_cases h : k = pk
    · subst h
      simp only [insertRep, if_true, List.map_cons, List.nodup_cons]
      exact ⟨hnod.1, hnod.2⟩
    · simp only [insertRep, if_neg h, List.map_cons, List.nodup_cons]
      refine ⟨?_, nodup_keys_insertRep k v t hnod.2⟩
      rw [mem_keys_insertRep]
      rintro (hc | hc)
      · exact h hc.symm
      · exact hnod.1 hc

theorem nodup_keys_buildMap {β : Type} (key : β → Str) (l : List β) :
    ((buildMap key l).map Prod.fst).Nodup := by
  unfold buildMap
  suffices hgen : ∀ acc : List (Str × β), (acc.map Prod.fst).Nodup →
      ((l.foldl (fun m f => insertRep (key f) f m) acc).map Prod.fst).Nodup by
    exact hgen [] (by simp)
  induction l with
  | nil => intro acc h; simpa using h
  | cons f t ih =>
    intro acc h
    rw [List.foldl_cons]
    exact ih _ (nodup_keys_insertRep _ _ _ h)

theorem lookupKey_of_mem_nodup {β : Type} (k : Str) (v : β) (m : List (Str × β))
    (hnod : (m.map Prod.fst).Nodup) (hmem : (k, v) ∈ m) : lookupKey k m = some v := by
  induction m with
  | nil => cases hmem
  | cons p t ih =>
    rw [List.map_cons, List.nodup_cons] at hnod
    rcases List.mem_cons.mp hmem with rfl | hmem'
    · simp [lookupKey]
    · unfold lookupKey
      rw [if_neg ?_]
      · exact ih hnod.2 hmem'
      · rintro rfl
        exact hnod.1 (List.mem_map.mpr ⟨(p.1, v), hmem', rfl⟩)

/-- Claim C5: `ComputeDelta` of a commit against itself is empty, and in
general the report partitions the path-ids of the two snapshot streams:
head-only ids are listed added, ids in both with differing content hash are
listed changed, base-only ids are listed deleted, and ids in both with equal
content hash appear in no list (each listed via its resolved path). -/
theorem C5_delta_partition :
    (∀ (b h : Str) (files : List FileSnapshot) (paths : List PathRecord),
       (ComputeDelta b h files files paths).IsEmpty = true)
  ∧ (∀ (b h : Str) (baseFiles headFiles : List FileSnapshot) (paths : List PathRecord),
      (baseFiles.map (fun f => f.pathID)).Nodup →
      (headFiles.map (fun f => f.pathID)).Nodup →
      (∀ id1 ∈ baseFiles.map (fun f => f.pathID) ++ headFiles.map (fun f => f.pathID),
       ∀ id2 ∈ baseFiles.map (fun f => f.pathID) ++ headFiles.map (fun f => f.pathID),
        resolvePath (pathLookupMap paths) id1 = resolvePath (pathLookupMap paths) id2 →
        id1 = id2) →
      (∀ hf ∈ headFiles, (∀ bf ∈ baseFiles, bf.pathID ≠ hf.pathID) →
        resolvePath (pathLookupMap paths) hf.pathID ∈
            (ComputeDelta b h baseFiles headFiles paths).filesAdded ∧
          resolvePath (pathLookupMap paths) hf.pathID ∉
            (ComputeDelta b h baseFiles headFiles paths).filesChanged ∧
          resolvePath (pathLookupMap paths) hf.pathID ∉
            (ComputeDelta b h baseFiles headFiles paths).filesDeleted) ∧
      (∀ bf ∈ baseFiles, ∀ hf ∈ headFiles, bf.pathID = hf.pathID →
        bf.contentSHA256 ≠ hf.contentSHA256 →
        resolvePath (pathLookupMap paths) hf.pathID ∈
            (ComputeDelta b h baseFiles headFiles paths).filesChanged ∧
          resolvePath (pathLookupMap paths) hf.pathID ∉
            (ComputeDelta b h baseFiles headFiles paths).filesAdded ∧
          resolvePath (pathLookupMap paths) hf.pathID ∉
            (ComputeDelta b h baseFiles headFiles paths).filesDeleted) ∧
      (∀ bf ∈ baseFiles, (∀ hf ∈ headFiles, hf.pathID ≠ bf.pathID) →
        resolvePath (pathLookupMap paths) bf.pathID ∈
            (ComputeDelta b h baseFiles headFiles paths).filesDeleted ∧
          resolvePath (pathLookupMap paths) bf.pathID ∉
            (ComputeDelta b h baseFiles headFiles paths).filesAdded ∧
          resolvePath (pathLookupMap paths) bf.pathID ∉
            (ComputeDelta b h baseFiles headFiles paths).filesChanged) ∧
      (∀ bf ∈ baseFiles, ∀ hf ∈ headFiles, bf.pathID = hf.pathID →
        bf.contentSHA256 = hf.contentSHA256 →
        resolvePath (pathLookupMap paths) hf.pathID ∉
            (ComputeDelta b h baseFiles headFiles paths).filesAdded ∧
          resolvePath (pathLookupMap paths) hf.pathID ∉
            (ComputeDelta b h baseFiles headFiles paths).filesChanged ∧
          resolvePath (pathLookupMap paths) hf.pathID ∉
            (ComputeDelta b h baseFiles headFiles paths).filesDeleted)) := by
  constructor
  · intro b h files paths
    have hnodk := nodup_keys_buildMap (fun f => f.pathID) files
    have hlkall : ∀ e ∈ buildMap (fun f => f.pathID) files,
        lookupKey e.1 (buildMap (fun f => f.pathID) files) = some e.2 := by
      intro e he
      obtain ⟨k, v⟩ := e
      exact lookupKey_of_mem_nodup k v _ hnodk he
    have hfA : (buildMap (fun f => f.pathID) files).filterMap (fun e =>
        match lookupKey e.1 (buildMap (fun f => f.pathID) files) with
        | none => some (resolvePath (pathLookupMap paths) e.1)
        | some _ => none) = [] := by
      rw [List.filterMap_eq_nil_iff]
      intro e he
      rw [hlkall e he]
    have hfC : (buildMap (fun f => f.pathID) files).filterMap (fun e =>
        match lookupKey e.1 (buildMap (fun f => f.pathID) files) with
        | some baseFile =>
          if baseFile.contentSHA256 ≠ e.2.contentSHA256 then
            some (resolvePath (pathLookupMap paths) e.1)
          else none
        | none => none) = [] := by
      rw [List.filterMap_eq_nil_iff]
      intro e he
      rw [hlkall e he]
      dsimp only
      rw [if_neg (fun hc => hc rfl)]
    have hrec : ComputeDelta b h files files paths =
        { base := b, head := h, filesChanged := [], filesAdded := [],
          filesDeleted := [] } := by
      simp only [ComputeDelta]
      rw [hfA, hfC]
      rfl
    rw [hrec]
    rfl
  · intro b h baseFiles headFiles paths hb hh hinj
    have hbm := buildMap_eq_of_nodup (fun f => f.pathID) baseFiles hb
    have hhm := buildMap_eq_of_nodup (fun f => f.pathID) headFiles hh
    have hA : (ComputeDelta b h baseFiles headFiles paths).filesAdded =
        sortBy strLe ((headFiles.map (fun f => (f.pathID, f))).filterMap (fun e =>
          match lookupKey e.1 (baseFiles.map (fun f => (f.pathID, f))) with
          | none => some (resolvePath (pathLookupMap paths) e.1)
          | some _ => none)) := by
      simp only [ComputeDelta]
      rw [hbm, hhm]
    have hC : (ComputeDelta b h baseFiles headFiles paths).filesChanged =
        sortBy strLe ((headFiles.map (fun f => (f.pathID, f))).filterMap (fun e =>
          match lookupKey e.1 (baseFiles.map (fun f => (f.pathID, f))) with
          | some baseFile =>
            if baseFile.contentSHA256 ≠ e.2.contentSHA256 then
              some (resolvePath (pathLookupMap paths) e.1)
            else none
          | none => none)) := by
      simp only [ComputeDelta]
      rw [hbm, hhm]
    have hD : (ComputeDelta b h baseFiles headFiles paths).filesDeleted =
        sortBy strLe ((baseFiles.map (fun f => (f.pathID, f))).filterMap (fun e =>
          match lookupKey e.1 (headFiles.map (fun f => (f.pathID, f))) with
          | none => some (resolvePath (pathLookupMap paths) e.1)
          | some _ => none)) := by
      simp only [ComputeDelta]
      rw [hbm, hhm]
    have hAddIff : ∀ x, x ∈ (ComputeDelta b h baseFiles headFiles paths).filesAdded ↔
        ∃ hf ∈ headFiles,
          lookupKey hf.pathID (baseFiles.map (fun f => (f.pathID, f))) = none ∧
          resolvePath (pathLookupMap paths) hf.pathID = x := by
      intro x
      rw [hA, mem_sortBy, List.mem_filterMap]
      constructor
      · rintro ⟨e, he, hg⟩
        obtain ⟨hf, hhf, rfl⟩ := List.mem_map.mp he
        dsimp only at hg
        cases hlk : lookupKey hf.pathID (baseFiles.map (fun f => (f.pathID, f))) with
        | none =>
          rw [hlk] at hg
          simp only [Option.some.injEq] at hg
          exact ⟨hf, hhf, hlk, hg⟩
        | some bf =>
          rw [hlk] at hg
          exact absurd hg (by simp)
      · rintro ⟨hf, hhf, hlk, rfl⟩
        refine ⟨(hf.pathID, hf), List.mem_map_of_mem _ hhf, ?_⟩
        dsimp only
        rw [hlk]
    have hChgIff : ∀ x, x ∈ (ComputeDelta b h baseFiles headFiles paths).filesChanged ↔
        ∃ hf ∈ headFiles, ∃ bf,
          lookupKey hf.pathID (baseFiles.map (fun f => (f.pathID, f))) = some bf ∧
          bf.contentSHA256 ≠ hf.contentSHA256 ∧
          resolvePath (pathLookupMap paths) hf.pathID = x := by
      intro x
      rw [hC, mem_sortBy, List.mem_filterMap]
      constructor
      · rintro ⟨e, he, hg⟩
        obtain ⟨hf, hhf, rfl⟩ := List.mem_map.mp he
        dsimp only at hg
        cases hlk : lookupKey hf.pathID (baseFiles.map (fun f => (f.pathID, f))) with
        | none =>
          rw [hlk] at hg
          exact absurd hg (by simp)
        | some bf =>
          rw [hlk] at hg
          dsimp only at hg
          by_cases hsha : bf.contentSHA256 ≠ hf.contentSHA256
          · rw [if_pos hsha] at hg
            simp only [Option.some.injEq] at hg
            exact ⟨hf, hhf, bf, hlk, hsha, hg⟩
          · rw [if_neg hsha] at hg
            exact absurd hg (by simp)
      · rintro ⟨hf, hhf, bf, hlk, hsha, rfl⟩
        refine ⟨(hf.pathID, hf), List.mem_map_of_mem _ hhf, ?_⟩
        dsimp only
        rw [hlk]
        dsimp only
        rw [if_pos hsha]
    have hDelIff : ∀ x, x ∈ (ComputeDelta b h baseFiles headFiles paths).filesDeleted ↔
        ∃ bf ∈ baseFiles,
          lookupKey bf.pathID (headFiles.map (fun f => (f.pathID, f))) = none ∧
          resolvePath (pathLookupMap paths) bf.pathID = x := by
      intro x
      rw [hD, mem_sortBy, List.mem_filterMap]
      constructor
      · rintro ⟨e, he, hg⟩
        obtain ⟨bf, hbf, rfl⟩ := List.mem_map.mp he
        dsimp only at hg
        cases hlk : lookupKey bf.pathID (headFiles.map (fun f => (f.pathID, f))) with
        | none =>
          rw [hlk] at hg
          simp only [Option.some.injEq] at hg
          exact ⟨bf, hbf, hlk, hg⟩
        | some hf =>
          rw [hlk] at hg
          exact absurd hg (by simp)
      · rintro ⟨bf, hbf, hlk, rfl⟩
        refine ⟨(bf.pathID, bf), List.mem_map_of_mem _ hbf, ?_⟩
        dsimp only
        rw [hlk]
    have hinj' : ∀ f1 f2 : FileSnapshot,
        (f1 ∈ baseFiles ∨ f1 ∈ headFiles) → (f2 ∈ baseFiles ∨ f2 ∈ headFiles) →
        resolvePath (pathLookupMap paths) f1.pathID =
          resolvePath (pathLookupMap paths) f2.pathID → f1.pathID = f2.pathID := by
      intro f1 f2 h1 h2 he
      refine hinj f1.pathID ?_ f2.pathID ?_ he
      · rcases h1 with h1 | h1
        · exact List.mem_append_left _ (List.mem_map_of_mem _ h1)
        · exact List.mem_append_right _ (List.mem_map_of_mem _ h1)
      · rcases h2 with h2 | h2
        · exact List.mem_append_left _ (List.mem_map_of_mem _ h2)
        · exact List.mem_append_right _ (List.mem_map_of_mem _ h2)
    refine ⟨?_, ?_, ?_, ?_⟩
    · intro hf hhf hnob
      have hnone : lookupKey hf.pathID (baseFiles.map (fun f => (f.pathID, f))) = none := by
        rw [lookupKey_map_pair_none]
        intro hc
        obtain ⟨bf, hbf, heq⟩ := List.mem_map.mp hc
        exact hnob bf hbf heq
      refine ⟨(hAddIff _).mpr ⟨hf, hhf, hnone, rfl⟩, ?_, ?_⟩
      · intro hc
        obtain ⟨hf', hh', bf, hlk', hsha, heqres⟩ := (hChgIff _).mp hc
        have hideq := hinj' hf' hf (Or.inr hh') (Or.inr hhf) heqres
        rw [hideq, hnone] at hlk'
        exact Option.noConfusion hlk'
      · intro hc
        obtain ⟨bf, hbf, hlkh, heqres⟩ := (hDelIff _).mp hc
        have hideq := hinj' bf hf (Or.inl hbf) (Or.inr hhf) heqres
        exact hnob bf hbf hideq
    · intro bf hbf hf hhf heq hsha
      have hlk : lookupKey hf.pathID (baseFiles.map (fun f => (f.pathID, f))) = some bf :=
        (lookupKey_map_pair_some _ _ _ hb bf).mpr ⟨hbf, heq⟩
      refine ⟨(hChgIff _).mpr ⟨hf, hhf, bf, hlk, hsha, rfl⟩, ?_, ?_⟩
      · intro hc
        obtain ⟨hf', hh', hnone', heqres⟩ := (hAddIff _).mp hc
        have hideq := hinj' hf' hf (Or.inr hh') (Or.inr hhf) heqres
        rw [hideq, hlk] at hnone'
        exact Option.noConfusion hnone'
      · intro hc
        obtain ⟨bf', hbf', hlkh', heqres⟩ := (hDelIff _).mp hc
        have hideq := hinj' bf' hf (Or.inl hbf') (Or.inr hhf) heqres
        have hsome : lookupKey hf.pathID (headFiles.map (fun f => (f.pathID, f))) = some hf :=
          (lookupKey_map_pair_some _ _ _ hh hf).mpr ⟨hhf, rfl⟩
        rw [hideq, hsome] at hlkh'
        exact Option.noConfusion hlkh'
    · intro bf hbf hnoh
      have hnone : lookupKey bf.pathID (headFiles.map (fun f => (f.pathID, f))) = none := by
        rw [lookupKey_map_pair_none]
        intro hc
        obtain ⟨hf, hhf, heq⟩ := List.mem_map.mp hc
        exact hnoh hf hhf heq
      refine ⟨(hDelIff _).mpr ⟨bf, hbf, hnone, rfl⟩, ?_, ?_⟩
      · intro hc
        obtain ⟨hf', hh', hnone', heqres⟩ := (hAddIff _).mp hc
        have hideq := hinj' hf' bf (Or.inr hh') (Or.inl hbf) heqres
        exact hnoh hf' hh' hideq
      · intro hc
        obtain ⟨hf', hh', bf', hlk', hsha', heqres⟩ := (hChgIff _).mp hc
        have hideq := hinj' hf' bf (Or.inr hh') (Or.inl hbf) heqres
        exact hnoh hf' hh' hideq
    · intro bf hbf hf hhf heq hsha
      have hlk : lookupKey hf.pathID (baseFiles.map (fun f => (f.pathID, f))) = some bf :=
        (lookupKey_map_pair_some _ _ _ hb bf).mpr ⟨hbf, heq⟩
      have hsome : lookupKey hf.pathID (headFiles.map (fun f => (f.pathID, f))) = some hf :=
        (lookupKey_map_pair_some _ _ _ hh hf).mpr ⟨hhf, rfl⟩
      refine ⟨?_, ?_, ?_⟩
      · intro hc
        obtain ⟨hf', hh', hnone', heqres⟩ := (hAddIff _).mp hc
        have hideq := hinj' hf' hf (Or.inr hh') (Or.inr hhf) heqres
        rw [hideq, hlk] at hnone'
        exact Option.noConfusion hnone'
      · intro hc
        obtain ⟨hf', hh', bf', hlk', hsha', heqres⟩ := (hChgIff _).mp hc
        have hideq := hinj' hf' hf (Or.inr hh') (Or.inr hhf) heqres
        have hfeq : hf' = hf := by
          have h1 := (lookupKey_map_pair_some (fun f => f.pathID) hf'.pathID
            headFiles hh hf').mpr ⟨hh', rfl⟩
          rw [hideq, hsome] at h1
          exact (Option.some.injEq _ _ ▸ h1).symm
        rw [hideq] at hlk'
        rw [hlk] at hlk'
        have hbfeq : bf = bf' := by
          simpa using hlk'
        rw [hfeq] at hsha'
        rw [← hbfeq] at hsha'
        exact hsha' hsha
      · intro hc
        obtain ⟨bf', hbf', hlkh', heqres⟩ := (hDelIff _).mp hc
        have hideq := hinj' bf' hf (Or.inl hbf') (Or.inr hhf) heqres
        rw [hideq, hsome] at hlkh'
        exact Option.noConfusion hlkh'

/-- Witness for C5: a concrete pair of snapshots with one changed, one added
and one deleted path. -/
theorem C5_witness :
    resolvePath (pathLookupMap c5Paths) (ks "p1") ∈
      (ComputeDelta (ks "c1") (ks "c2") [c5f1, c5f3] [c5f1h, c5f2] c5Paths).filesChanged ∧
    (ComputeDelta (ks "c1") (ks "c1") [c5f1, c5f3] [c5f1, c5f3] c5Paths).IsEmpty = true :=
  ⟨((C5_delta_partition.2 (ks "c1") (ks "c2") [c5f1, c5f3] [c5f1h, c5f2] c5Paths
      (by decide) (by decide) (by decide)).2.1 c5f1 (by decide) c5f1h (by decide)
      (by decide) (by decide)).1,
   C5_delta_partition.1 (ks "c1") (ks "c1") [c5f1, c5f3] c5Paths⟩

/-- Counterexample to claim C6 as stated: a tiny cap (8) together with one
high-scoring 100-token file — the over-cap admission branch has no upper bound
on the admitted file's size, so the total exceeds `2 × token_cap`. -/
theorem C6_counterexample :
    (GeneratePack [c6File] c6Paths [] c6Req).estimatedTokens >
      2 * (GeneratePack [c6File] c6Paths [] c6Req).tokenCap := by
  decide

theorem fillFiles_sum (cap : Int) :
    ∀ (l : List ScoredFile) (rem : Int),
      ((fillFiles cap rem l).1.map (fun f => f.estimatedTokens)).sum =
        rem - (fillFiles cap rem l).2 := by
  intro l
  induction l with
  | nil => intro rem; simp [fillFiles]
  | cons c t ih =>
    intro rem
    unfold fillFiles
    by_cases hc : c.tokens > rem ∧ (c.score < 20 ∨ rem < Int.tdiv cap 4)
    · rw [if_pos hc]
      exact ih rem
    · rw [if_neg hc]
      dsimp only
      by_cases hstop : rem - c.tokens ≤ 0
      · rw [if_pos hstop]
        simp [fileItem]
      · rw [if_neg hstop]
        dsimp only
        have := ih (rem - c.tokens)
        cases hrec : fillFiles cap (rem - c.tokens) t with
        | mk items remF =>
          rw [hrec] at this
          simp only [List.map_cons, List.sum_cons, fileItem] at this ⊢
          omega

theorem fillFiles_rem_lb (cap B : Int) (hB : 0 ≤ B) :
    ∀ (l : List ScoredFile) (rem : Int), 1 ≤ rem →
      (∀ c ∈ l, c.tokens ≤ B) → 1 - B ≤ (fillFiles cap rem l).2 := by
  intro l
  induction l with
  | nil => intro rem hrem _; simp [fillFiles]; omega
  | cons c t ih =>
    intro rem hrem hall
    unfold fillFiles
    by_cases hc : c.tokens > rem ∧ (c.score < 20 ∨ rem < Int.tdiv cap 4)
    · rw [if_pos hc]
      exact ih rem hrem (fun x hx => hall x (List.mem_cons_of_mem c hx))
    · rw [if_neg hc]
      dsimp only
      have hcB : c.tokens ≤ B := hall c (List.mem_cons_self c t)
      by_cases hstop : rem - c.tokens ≤ 0
      · rw [if_pos hstop]
        dsimp only
        omega
      · rw [if_neg hstop]
        dsimp only
        cases hrec : fillFiles cap (rem - c.tokens) t with
        | mk items remF =>
          have := ih (rem - c.tokens) (by omega)
            (fun x hx => hall x (List.mem_cons_of_mem c hx))
          rw [hrec] at this
          exact this

theorem fillFiles_rem_nonneg (cap : Int) :
    ∀ (l : List ScoredFile) (rem : Int), 0 ≤ rem →
      (∀ c ∈ l, c.tokens ≤ Int.tdiv cap 4) → 0 ≤ (fillFiles cap rem l).2 := by
  intro l
  induction l with
  | nil => intro rem hrem _; simpa [fillFiles] using hrem
  | cons c t ih =>
    intro rem hrem hall
    unfold fillFiles
    by_cases hc : c.tokens > rem ∧ (c.score < 20 ∨ rem < Int.tdiv cap 4)
    · rw [if_pos hc]
      exact ih rem hrem (fun x hx => hall x (List.mem_cons_of_mem c hx))
    · rw [if_neg hc]
      dsimp only
      have hfit : c.tokens ≤ rem := by
        by_contra hgt
        push_neg at hgt
        have h4 : c.tokens ≤ Int.tdiv cap 4 := hall c (List.mem_cons_self c t)
        exact hc ⟨hgt, Or.inr (by omega)⟩
      by_cases hstop : rem - c.tokens ≤ 0
      · rw [if_pos hstop]
        dsimp only
        omega
      · rw [if_neg hstop]
        dsimp only
        cases hrec : fillFiles cap (rem - c.tokens) t with
        | mk items remF =>
          have := ih (rem - c.tokens) (by omega)
            (fun x hx => hall x (List.mem_cons_of_mem c hx))
          rw [hrec] at this
          exact this

theorem fillSymbols_sum (pl : List (Str × Str)) :
    ∀ (l : List ScoredSymbol) (rem : Int),
      ((fillSymbols pl rem l).1.map (fun s => s.estimatedTokens)).sum =
        rem - (fillSymbols pl rem l).2 := by
  intro l
  induction l with
  | nil => intro rem; simp [fillSymbols]
  | cons c t ih =>
    intro rem
    unfold fillSymbols
    by_cases hc : c.tokens > rem
    · rw [if_pos hc]
      exact ih rem
    · rw [if_neg hc]
      dsimp only
      by_cases hstop : rem - c.tokens ≤ 0
      · rw [if_pos hstop]
        simp [symItem]
      · rw [if_neg hstop]
        dsimp only
        have := ih (rem - c.tokens)
        cases hrec : fillSymbols pl (rem - c.tokens) t with
        | mk items remF =>
          rw [hrec] at this
          simp only [List.map_cons, List.sum_cons, symItem] at this ⊢
          omega

theorem fillSymbols_rem_nonneg (pl : List (Str × Str)) :
    ∀ (l : List ScoredSymbol) (rem : Int), 0 ≤ rem →
      0 ≤ (fillSymbols pl rem l).2 := by
  intro l
  induction l with
  | nil => intro rem hrem; simpa [fillSymbols] using hrem
  | cons c t ih =>
    intro rem hrem
    unfold fillSymbols
    by_cases hc : c.tokens > rem
    · rw [if_pos hc]
      exact ih rem hrem
    · rw [if_neg hc]
      dsimp only
      by_cases hstop : rem - c.tokens ≤ 0
      · rw [if_pos hstop]
        dsimp only
        omega
      · rw [if_neg hstop]
        dsimp only
        cases hrec : fillSymbols pl (rem - c.tokens) t with
        | mk items remF =>
          have := ih (rem - c.tokens) (by omega)
          rw [hrec] at this
          exact this

theorem fillSymbols_rem_neg (pl : List (Str × Str)) :
    ∀ (l : List ScoredSymbol) (rem : Int), rem < 0 →
      (∀ s ∈ l, 1 ≤ s.tokens) → (fillSymbols pl rem l).2 = rem := by
  intro l
  induction l with
  | nil => intro rem _ _; rfl
  | cons c t ih =>
    intro rem hrem hall
    unfold fillSymbols
    rw [if_pos ?_]
    · exact ih rem hrem (fun x hx => hall x (List.mem_cons_of_mem c hx))
    · have := hall c (List.mem_cons_self c t)
      omega

theorem optCap_pos (req : PackRequest) : 1 ≤ optCap req := by
  unfold optCap DefaultTokenCap
  by_cases h : req.tokenCap ≤ 0
  · rw [if_pos h]
    norm_num
  · rw [if_neg h]
    omega

theorem symTokens_ge_ten (sym : SymbolRecord) : 10 ≤ symTokens sym := by
  unfold symTokens
  by_cases hlt : estimateTokens ((sym.signature.length : Int) +
      (sym.docstring.length : Int)) < 10
  · rw [if_pos hlt]
  · rw [if_neg hlt]
    omega

theorem symCandidates_tokens {symbols : List SymbolRecord} {ids : List Str}
    {tw : List Str} (s : ScoredSymbol) (hs : s ∈ symCandidates symbols ids tw) :
    s.symbol ∈ symbols ∧ s.tokens = symTokens s.symbol ∧ 10 ≤ s.tokens := by
  unfold symCandidates at hs
  obtain ⟨sym, hsym, hsome⟩ := List.mem_filterMap.mp hs
  by_cases hin : sym.pathID ∈ ids
  · rw [if_pos hin] at hsome
    simp only [Option.some.injEq] at hsome
    subst hsome
    exact ⟨hsym, rfl, symTokens_ge_ten sym⟩
  · rw [if_neg hin] at hsome
    exact absurd hsome (by simp)

/-- Claim C6 as amended: the total token estimate of the admitted files and
symbols is at most `token_cap + B` whenever `B` bounds every individual
candidate estimate (hence at most `2 × token_cap` when every candidate is at
most `token_cap` — without such a bound the single over-cap admission is
unbounded), and at most `token_cap` whenever every candidate estimate is at
most a quarter of the cap. -/
theorem C6_optimizer_budget_amended (files : List FileSnapshot)
    (paths : List PathRecord) (symbols : List SymbolRecord) (req : PackRequest)
    (B : Int) (hB : 0 ≤ B)
    (hfile : ∀ c ∈ fileCandidates files (optPlMap paths) (optTaskWords req)
        req.includeTests, c.tokens ≤ B)
    (hsym : ∀ sym ∈ symbols, symTokens sym ≤ B) :
    (GeneratePack files paths symbols req).estimatedTokens ≤ optCap req + B
  ∧ ((∀ c ∈ fileCandidates files (optPlMap paths) (optTaskWords req)
        req.includeTests, 4 * c.tokens ≤ optCap req) →
     (∀ sym ∈ symbols, 4 * symTokens sym ≤ optCap req) →
     (GeneratePack files paths symbols req).estimatedTokens ≤ optCap req) := by
  obtain ⟨fa, r1, heq⟩ : ∃ fa r1, optFilePhase files paths req = (fa, r1) :=
    ⟨(optFilePhase files paths req).1, (optFilePhase files paths req).2, rfl⟩
  have hcap1 : 1 ≤ optCap req := optCap_pos req
  have hcands : ∀ c ∈ optSortedCands files paths req,
      c ∈ fileCandidates files (optPlMap paths) (optTaskWords req) req.includeTests :=
    fun c hc => (mem_sortBy fileCandLe _ c).mp hc
  have hsumF : (fa.map (fun f => f.estimatedTokens)).sum = optCap req - r1 := by
    have := fillFiles_sum (optCap req) (optSortedCands files paths req) (optCap req)
    unfold optFilePhase at heq
    rw [heq] at this
    exact this
  have hEst : (GeneratePack files paths symbols req).estimatedTokens =
      (fa.map (fun f => f.estimatedTokens)).sum +
      ((optSymPhase files paths symbols req).map (fun s => s.estimatedTokens)).sum := by
    unfold GeneratePack
    rw [heq]
  by_cases hsy : symbols.isEmpty = true
  · have hsp : optSymPhase files paths symbols req = [] := by
      unfold optSymPhase
      rw [if_pos hsy]
    constructor
    · have hlb : 1 - B ≤ r1 := by
        have := fillFiles_rem_lb (optCap req) B hB (optSortedCands files paths req)
          (optCap req) hcap1 (fun c hc => hfile c (hcands c hc))
        unfold optFilePhase at heq
        rw [heq] at this
        exact this
      rw [hEst, hsp, hsumF]
      simp only [List.map_nil, List.sum_nil]
      omega
    · intro hq _
      have htd : ∀ c ∈ optSortedCands files paths req,
          c.tokens ≤ Int.tdiv (optCap req) 4 := by
        intro c hc
        obtain ⟨n, hn⟩ : ∃ n : ℕ, optCap req = (n : Int) :=
          ⟨(optCap req).toNat, by omega⟩
        have h4 := hq c (hcands c hc)
        rw [hn] at h4 ⊢
        have : Int.tdiv (n : Int) 4 = (n : Int) / 4 := rfl
        rw [this]
        omega
      have hr1 : 0 ≤ r1 := by
        have := fillFiles_rem_nonneg (optCap req) (optSortedCands files paths req)
          (optCap req) (by omega) htd
        unfold optFilePhase at heq
        rw [heq] at this
        exact this
      rw [hEst, hsp, hsumF]
      simp only [List.map_nil, List.sum_nil]
      omega
  · have hsp : optSymPhase files paths symbols req =
        (fillSymbols (optPlMap paths) r1 (sortBy symCandLe
          (symCandidates symbols (includedPathIDs fa files (optPlMap paths))
            (optTaskWords req)))).1 := by
      unfold optSymPhase
      rw [heq, if_neg hsy]
    have hsymtok : ∀ s ∈ sortBy symCandLe
        (symCandidates symbols (includedPathIDs fa files (optPlMap paths))
          (optTaskWords req)), 1 ≤ s.tokens ∧ s.tokens ≤ B := by
      intro s hsmem
      obtain ⟨hmem, htok, hge⟩ := symCandidates_tokens s
        ((mem_sortBy symCandLe _ s).mp hsmem)
      exact ⟨by omega, by rw [htok]; exact hsym s.symbol hmem⟩
    obtain ⟨sa, r2, heq2⟩ : ∃ sa r2, fillSymbols (optPlMap paths) r1 (sortBy symCandLe
        (symCandidates symbols (includedPathIDs fa files (optPlMap paths))
          (optTaskWords req))) = (sa, r2) := ⟨_, _, rfl⟩
    have hsumS : (sa.map (fun s => s.estimatedTokens)).sum = r1 - r2 := by
      have := fillSymbols_sum (optPlMap paths) (sortBy symCandLe
        (symCandidates symbols (includedPathIDs fa files (optPlMap paths))
          (optTaskWords req))) r1
      rw [heq2] at this
      exact this
    have hsp2 : optSymPhase files paths symbols req = sa := by
      rw [hsp, heq2]
    constructor
    · have hlb : 1 - B ≤ r1 := by
        have := fillFiles_rem_lb (optCap req) B hB (optSortedCands files paths req)
          (optCap req) hcap1 (fun c hc => hfile c (hcands c hc))
        unfold optFilePhase at heq
        rw [heq] at this
        exact this
      rw [hEst, hsp2, hsumF, hsumS]
      by_cases h0 : 0 ≤ r1
      · have hr2 : 0 ≤ r2 := by
          have := fillSymbols_rem_nonneg (optPlMap paths) (sortBy symCandLe
            (symCandidates symbols (includedPathIDs fa files (optPlMap paths))
              (optTaskWords req))) r1 h0
          rw [heq2] at this
          exact this
        omega
      · have hr2 : r2 = r1 := by
          have := fillSymbols_rem_neg (optPlMap paths) (sortBy symCandLe
            (symCandidates symbols (includedPathIDs fa files (optPlMap paths))
              (optTaskWords req))) r1 (by omega)
            (fun s hsmem => (hsymtok s hsmem).1)
          rw [heq2] at this
          exact this
        omega
    · intro hq _
      have htd : ∀ c ∈ optSortedCands files paths req,
          c.tokens ≤ Int.tdiv (optCap req) 4 := by
        intro c hc
        obtain ⟨n, hn⟩ : ∃ n : ℕ, optCap req = (n : Int) :=
          ⟨(optCap req).toNat, by omega⟩
        have h4 := hq c (hcands c hc)
        rw [hn] at h4 ⊢
        have : Int.tdiv (n : Int) 4 = (n : Int) / 4 := rfl
        rw [this]
        omega
      have hr1 : 0 ≤ r1 := by
        have := fillFiles_rem_nonneg (optCap req) (optSortedCands files paths req)
          (optCap req) (by omega) htd
        unfold optFilePhase at heq
        rw [heq] at this
        exact this
      have hr2 : 0 ≤ r2 := by
        have := fillSymbols_rem_nonneg (optPlMap paths) (sortBy symCandLe
          (symCandidates symbols (includedPathIDs fa files (optPlMap paths))
            (optTaskWords req))) r1 hr1
        rw [heq2] at this
        exact this
      rw [hEst, hsp2, hsumF, hsumS]
      omega

/-- Witness for the amended C6 at the concrete over-budget instance: with
`B = 100` the total is within `token_cap + B`. -/
theorem C6_witness :
    (GeneratePack [c6File] c6Paths [] c6Req).estimatedTokens ≤ optCap c6Req + 100 :=
  (C6_optimizer_budget_amended [c6File] c6Paths [] c6Req 100 (by decide)
    (by decide) (by decide)).1

theorem parseHash_hashContent (H : Data → Str) (hg : hashGood H) (d : Data) :
    ParseHash (HashContent H d) = .ok (ks "sha256", H d) := by
  obtain ⟨hlen, hhex⟩ := hg d
  unfold ParseHash HashContent
  rw [if_pos (isPrefixOf_append_self hashScheme (H d))]
  dsimp only
  rw [List.drop_left]
  rw [if_neg (by simp [hlen])]
  rw [if_pos (by simp [decodeHexOk, hlen, hhex])]

theorem blobPath_hashContent (H : Data → Str) (hg : hashGood H) (d : Data) :
    blobPath (HashContent H d) = .ok (H d) := by
  unfold blobPath
  rw [parseHash_hashContent H hg d]
  dsimp only
  rw [if_neg (by simp [(hg d).1])]

theorem writeBlob_to_empty (H : Data → Str) (hg : hashGood H) (d : Data) :
    WriteBlob H [] d = .ok (HashContent H d, [(H d, d)]) := by
  unfold WriteBlob
  dsimp only
  rw [blobPath_hashContent H hg d]
  rfl

theorem c7H_good : hashGood c7H := by
  intro d
  have hd : (List.replicate 64 'd').length = 64 ∧
      (List.replicate 64 'd').all isHexDigitChar = true := by decide
  have he : (List.replicate 64 'e').length = 64 ∧
      (List.replicate 64 'e').all isHexDigitChar = true := by decide
  have hf : (List.replicate 64 'f').length = 64 ∧
      (List.replicate 64 'f').all isHexDigitChar = true := by decide
  unfold c7H
  match d with
  | .bytes _ => exact hf
  | .json .null => exact hf
  | .json (.bool _) => exact hf
  | .json (.num _) => exact hf
  | .json (.str _) => exact hf
  | .json (.arr _) => exact hf
  | .json (.obj []) => exact hf
  | .json (.obj ((k, v) :: t)) =>
    dsimp only
    by_cases hk : k = ks "version"
    · rw [if_pos hk]; exact hd
    · rw [if_neg hk]; exact he

/-- Claim C7: refuted — code bug.  `FinalizeDraft` serializes the cleared
draft with `json.Marshal(&p)` (struct field order), not with `canonicalJSON`:
at the concrete draft the blob it stores is the struct-order document, which
differs from the key-sorted canonical document, so for any digest separating
the two documents the finalized hash differs from the `CanonicalHash` of the
manifest (the hash `CreatePack` would have assigned). -/
theorem C7_finalize_not_canonical (H : Data → Str) (hg : hashGood H)
    (hne : H (.json (packToJson c7Draft)) ≠ H (.json (canonicalJSON c7Draft))) :
    ∃ q st packs,
      FinalizeDraft H [] [] c7Draft = .ok (q, st, packs) ∧
      st = [(H (.json (packToJson c7Draft)), .json (packToJson c7Draft))] ∧
      Json.beq (packToJson c7Draft) (canonicalJSON c7Draft) = false ∧
      q.hash ≠ CanonicalHash H c7Draft := by
  have hcd : ({ c7Draft with hash := [] } : Pack) = c7Draft := rfl
  refine ⟨{ c7Draft with hash := HashContent H (.json (packToJson c7Draft)) },
    [(H (.json (packToJson c7Draft)), .json (packToJson c7Draft))],
    [H (.json (packToJson c7Draft))], ?_, rfl, by decide, ?_⟩
  · unfold FinalizeDraft
    rw [if_neg (by decide : ¬(c7Draft.parent = []))]
    dsimp only
    rw [hcd, writeBlob_to_empty H hg (.json (packToJson c7Draft))]
    dsimp only
    unfold RegisterPack
    rw [parseHash_hashContent H hg (.json (packToJson c7Draft))]
    dsimp only
    rw [if_neg (List.not_mem_nil _)]
  · intro h
    apply hne
    have h3 : ({ c7Draft with
        hash := HashContent H (.json (packToJson c7Draft)) } : Pack).hash =
        HashContent H (.json (packToJson c7Draft)) := rfl
    rw [h3] at h
    have h2 : HashContent H (.json (packToJson c7Draft)) =
        HashContent H (.json (canonicalJSON c7Draft)) := by
      rw [h]
      unfold CanonicalHash
      rw [hcd]
    unfold HashContent at h2
    exact List.append_cancel_left h2

/-- Witness for C7 at the digest `c7H`, which separates the struct-order
document from the canonical one. -/
theorem C7_witness :
    ∃ q st packs,
      FinalizeDraft c7H [] [] c7Draft = .ok (q, st, packs) ∧
      st = [(c7H (.json (packToJson c7Draft)), .json (packToJson c7Draft))] ∧
      Json.beq (packToJson c7Draft) (canonicalJSON c7Draft) = false ∧
      q.hash ≠ CanonicalHash c7H c7Draft :=
  C7_finalize_not_canonical c7H c7H_good (by decide)

theorem sortKeysArr_map {α : Type} (g : α → Json) :
    ∀ l : List α, sortKeysArr (l.map g) = l.map (fun x => sortKeysJ (g x)) := by
  intro l
  induction l with
  | nil => rfl
  | cons a t ih => simp only [List.map_cons, sortKeysArr, ih]

theorem sortKeysObj_map_str :
    ∀ l : List (Str × Str),
      sortKeysObj (l.map (fun kv => (kv.1, Json.str kv.2))) =
        l.map (fun kv => (kv.1, Json.str kv.2)) := by
  intro l
  induction l with
  | nil => rfl
  | cons a t ih => simp only [List.map_cons, sortKeysObj, sortKeysJ, ih]

theorem jsonToPrompt_roundtrip (pr : Prompt) :
    jsonToPrompt (sortKeysJ (promptToJson pr)) = some pr := rfl

theorem jsonToInput_roundtrip (i : Input) :
    jsonToInput (sortKeysJ (inputToJson i)) = some i := rfl

theorem jsonToOutput_roundtrip (o : Output) :
    jsonToOutput (sortKeysJ (outputToJson o)) = some o := by
  rcases o with ⟨n, c, cp⟩
  by_cases hc : cp = []
  · subst hc
    rfl
  · unfold outputToJson
    dsimp only
    rw [if_neg hc]
    rfl

theorem jsonToModel_roundtrip (m : PackModel)
    (h1 : m.parameters.isMapShape = true)
    (h2 : Json.canonical m.parameters = true) :
    jsonToModel (sortKeysJ (modelToJson m)) = some m := by
  have hid : sortKeysJ m.parameters = m.parameters :=
    Json.sortKeys_canonical_id _ h2
  have hconv : sortKeysJ (modelToJson m) = Json.obj
      [(ks "identifier", .str m.identifier),
       (ks "parameters", sortKeysJ (sortKeysJ m.parameters))] := rfl
  rw [hconv, hid, hid]
  cases hps : m.parameters with
  | null => exact congrArg some (by rw [← hps])
  | obj l => exact congrArg some (by rw [← hps])
  | bool b => rw [hps] at h1; simp [Json.isMapShape] at h1
  | num q => rw [hps] at h1; simp [Json.isMapShape] at h1
  | str s => rw [hps] at h1; simp [Json.isMapShape] at h1
  | arr l => rw [hps] at h1; simp [Json.isMapShape] at h1

theorem jsonToStep_roundtrip (s : Step)
    (h1 : s.parameters.isMapShape = true)
    (h2 : Json.canonical s.parameters = true) :
    jsonToStep (sortKeysJ (stepToJson s)) = some s := by
  have hid : sortKeysJ s.parameters = s.parameters :=
    Json.sortKeys_canonical_id _ h2
  have hconv : sortKeysJ (stepToJson s) = Json.obj
      [(ks "deterministic", .bool s.deterministic),
       (ks "index", .num (s.index : ℚ)),
       (ks "output_ref", .str s.outputRef),
       (ks "parameters", sortKeysJ (sortKeysJ s.parameters)),
       (ks "timestamp", .str s.timestamp),
       (ks "tool", .str s.tool),
       (ks "type", .str s.type)] := rfl
  rw [hconv, hid, hid]
  cases hps : s.parameters with
  | null => exact congrArg some (by rw [← hps]; rfl)
  | obj l => exact congrArg some (by rw [← hps]; rfl)
  | bool b => rw [hps] at h1; simp [Json.isMapShape] at h1
  | num q => rw [hps] at h1; simp [Json.isMapShape] at h1
  | str s' => rw [hps] at h1; simp [Json.isMapShape] at h1
  | arr l => rw [hps] at h1; simp [Json.isMapShape] at h1

theorem jsonToEnv_roundtrip (e : Environment)
    (he : keysSortedStrict
      (e.toolVersions.map (fun kv => (kv.1, Json.str kv.2))) = true) :
    jsonToEnv (sortKeysJ (envToJson e)) = some e := by
  have hmap := sortPairs_id _ he
  have hconv : sortKeysJ (envToJson e) = Json.obj
      [(ks "os", .str e.os),
       (ks "runtime", .str e.runtime),
       (ks "tool_versions", .obj (sortBy (fun p q => strLe p.1 q.1)
         (sortKeysObj (sortBy (fun p q => strLe p.1 q.1)
           (e.toolVersions.map (fun kv => (kv.1, Json.str kv.2)))))))] := rfl
  rw [hconv, hmap, sortKeysObj_map_str, hmap]
  have hmo : mapO (fun kv => match kv.2 with
      | Json.str s => some (kv.1, s)
      | _ => none)
      (e.toolVersions.map (fun kv => (kv.1, Json.str kv.2))) =
      some e.toolVersions :=
    mapO_map_id _ _ _ (fun a _ => rfl)
  have hred : jsonToEnv (Json.obj
      [(ks "os", .str e.os),
       (ks "runtime", .str e.runtime),
       (ks "tool_versions", .obj
         (e.toolVersions.map (fun kv => (kv.1, Json.str kv.2))))]) =
      Option.bind (mapO (fun kv => match kv.2 with
        | Json.str s => some (kv.1, s)
        | _ => none)
        (e.toolVersions.map (fun kv => (kv.1, Json.str kv.2))))
        (fun tvs => some { os := e.os, runtime := e.runtime,
                           toolVersions := tvs }) := rfl
  rw [hred, hmo]
  rfl

theorem jsonToPack_roundtrip (p : Pack)
    (hm1 : p.model.parameters.isMapShape = true)
    (hm2 : Json.canonical p.model.parameters = true)
    (hs : ∀ s ∈ p.steps, s.parameters.isMapShape = true ∧
      Json.canonical s.parameters = true)
    (he : keysSortedStrict
      (p.environment.toolVersions.map (fun kv => (kv.1, Json.str kv.2))) = true) :
    jsonToPack (sortKeysJ (packToJson p)) = some p := by
  have hP : mapO jsonToPrompt (sortKeysArr (p.prompts.map promptToJson)) =
      some p.prompts := by
    rw [sortKeysArr_map]
    exact mapO_map_id _ _ _ (fun a _ => jsonToPrompt_roundtrip a)
  have hI : mapO jsonToInput (sortKeysArr (p.inputs.map inputToJson)) =
      some p.inputs := by
    rw [sortKeysArr_map]
    exact mapO_map_id _ _ _ (fun a _ => jsonToInput_roundtrip a)
  have hSt : mapO jsonToStep (sortKeysArr (p.steps.map stepToJson)) =
      some p.steps := by
    rw [sortKeysArr_map]
    exact mapO_map_id _ _ _ (fun a ha => jsonToStep_roundtrip a (hs a ha).1 (hs a ha).2)
  have hO : mapO jsonToOutput (sortKeysArr (p.outputs.map outputToJson)) =
      some p.outputs := by
    rw [sortKeysArr_map]
    exact mapO_map_id _ _ _ (fun a _ => jsonToOutput_roundtrip a)
  have hM := jsonToModel_roundtrip p.model hm1 hm2
  have hE := jsonToEnv_roundtrip p.environment he
  by_cases hpar : p.parent = []
  · have hdoc0 : packToJson p = Json.obj
        [(ks "version", .str p.version), (ks "hash", .str p.hash),
         (ks "created", .str p.created), (ks "model", modelToJson p.model),
         (ks "system_prompt", .str p.systemPrompt),
         (ks "prompts", .arr (p.prompts.map promptToJson)),
         (ks "inputs", .arr (p.inputs.map inputToJson)),
         (ks "steps", .arr (p.steps.map stepToJson)),
         (ks "outputs", .arr (p.outputs.map outputToJson)),
         (ks "environment", envToJson p.environment)] := by
      unfold packToJson
      rw [if_pos hpar, List.append_nil]
    have hdoc : sortKeysJ (packToJson p) = Json.obj
        [(ks "created", .str p.created),
         (ks "environment", sortKeysJ (envToJson p.environment)),
         (ks "hash", .str p.hash),
         (ks "inputs", .arr (sortKeysArr (p.inputs.map inputToJson))),
         (ks "model", sortKeysJ (modelToJson p.model)),
         (ks "outputs", .arr (sortKeysArr (p.outputs.map outputToJson))),
         (ks "prompts", .arr (sortKeysArr (p.prompts.map promptToJson))),
         (ks "steps", .arr (sortKeysArr (p.steps.map stepToJson))),
         (ks "system_prompt", .str p.systemPrompt),
         (ks "version", .str p.version)] := by
      rw [hdoc0]
      rfl
    have hred : jsonToPack (Json.obj
        [(ks "created", .str p.created),
         (ks "environment", sortKeysJ (envToJson p.environment)),
         (ks "hash", .str p.hash),
         (ks "inputs", .arr (sortKeysArr (p.inputs.map inputToJson))),
         (ks "model", sortKeysJ (modelToJson p.model)),
         (ks "outputs", .arr (sortKeysArr (p.outputs.map outputToJson))),
         (ks "prompts", .arr (sortKeysArr (p.prompts.map promptToJson))),
         (ks "steps", .arr (sortKeysArr (p.steps.map stepToJson))),
         (ks "system_prompt", .str p.systemPrompt),
         (ks "version", .str p.version)]) =
        Option.bind (jsonToModel (sortKeysJ (modelToJson p.model))) (fun model =>
        Option.bind (mapO jsonToPrompt (sortKeysArr (p.prompts.map promptToJson))) (fun prompts =>
        Option.bind (mapO jsonToInput (sortKeysArr (p.inputs.map inputToJson))) (fun inputs =>
        Option.bind (mapO jsonToStep (sortKeysArr (p.steps.map stepToJson))) (fun steps =>
        Option.bind (mapO jsonToOutput (sortKeysArr (p.outputs.map outputToJson))) (fun outputs =>
        Option.bind (jsonToEnv (sortKeysJ (envToJson p.environment))) (fun environment =>
        some { version := p.version, hash := p.hash, created := p.created,
               model := model, systemPrompt := p.systemPrompt,
               prompts := prompts, inputs := inputs, steps := steps,
               outputs := outputs, environment := environment,
               parent := [] })))))) := rfl
    rw [hdoc, hred, hM, hP, hI, hSt, hO, hE]
    exact congrArg some (by rw [← hpar])
  · have hdoc0 : packToJson p = Json.obj
        [(ks "version", .str p.version), (ks "hash", .str p.hash),
         (ks "created", .str p.created), (ks "model", modelToJson p.model),
         (ks "system_prompt", .str p.systemPrompt),
         (ks "prompts", .arr (p.prompts.map promptToJson)),
         (ks "inputs", .arr (p.inputs.map inputToJson)),
         (ks "steps", .arr (p.steps.map stepToJson)),
         (ks "outputs", .arr (p.outputs.map outputToJson)),
         (ks "environment", envToJson p.environment),
         (ks "parent", .str p.parent)] := by
      unfold packToJson
      rw [if_neg hpar]
      rfl
    have hdoc : sortKeysJ (packToJson p) = Json.obj
        [(ks "created", .str p.created),
         (ks "environment", sortKeysJ (envToJson p.environment)),
         (ks "hash", .str p.hash),
         (ks "inputs", .arr (sortKeysArr (p.inputs.map inputToJson))),
         (ks "model", sortKeysJ (modelToJson p.model)),
         (ks "outputs", .arr (sortKeysArr (p.outputs.map outputToJson))),
         (ks "parent", .str p.parent),
         (ks "prompts", .arr (sortKeysArr (p.prompts.map promptToJson))),
         (ks "steps", .arr (sortKeysArr (p.steps.map stepToJson))),
         (ks "system_prompt", .str p.systemPrompt),
         (ks "version", .str p.version)] := by
      rw [hdoc0]
      rfl
    have hred : jsonToPack (Json.obj
        [(ks "created", .str p.created),
         (ks "environment", sortKeysJ (envToJson p.environment)),
         (ks "hash", .str p.hash),
         (ks "inputs", .arr (sortKeysArr (p.inputs.map inputToJson))),
         (ks "model", sortKeysJ (modelToJson p.model)),
         (ks "outputs", .arr (sortKeysArr (p.outputs.map outputToJson))),
         (ks "parent", .str p.parent),
         (ks "prompts", .arr (sortKeysArr (p.prompts.map promptToJson))),
         (ks "steps", .arr (sortKeysArr (p.steps.map stepToJson))),
         (ks "system_prompt", .str p.systemPrompt),
         (ks "version", .str p.version)]) =
        Option.bind (jsonToModel (sortKeysJ (modelToJson p.model))) (fun model =>
        Option.bind (mapO jsonToPrompt (sortKeysArr (p.prompts.map promptToJson))) (fun prompts =>
        Option.bind (mapO jsonToInput (sortKeysArr (p.inputs.map inputToJson))) (fun inputs =>
        Option.bind (mapO jsonToStep (sortKeysArr (p.steps.map stepToJson))) (fun steps =>
        Option.bind (mapO jsonToOutput (sortKeysArr (p.outputs.map outputToJson))) (fun outputs =>
        Option.bind (jsonToEnv (sortKeysJ (envToJson p.environment))) (fun environment =>
        some { version := p.version, hash := p.hash, created := p.created,
               model := model, systemPrompt := p.systemPrompt,
               prompts := prompts, inputs := inputs, steps := steps,
               outputs := outputs, environment := environment,
               parent := p.parent })))))) := rfl
    rw [hdoc, hred, hM, hP, hI, hSt, hO, hE]
    rfl

theorem lookupKey_mem {β : Type} (k : Str) (v : β) :
    ∀ st : List (Str × β), lookupKey k st = some v → (k, v) ∈ st := by
  intro st
  induction st with
  | nil => intro h; exact Option.noConfusion h
  | cons q t ih =>
    obtain ⟨k', v'⟩ := q
    intro h
    simp only [lookupKey] at h
    by_cases hk : k = k'
    · rw [if_pos hk] at h
      injection h with h'
      subst hk
      subst h'
      exact List.mem_cons_self _ _
    · rw [if_neg hk] at h
      exact List.mem_cons_of_mem _ (ih h)

theorem writeBlob_to_store (H : Data → Str) (hg : hashGood H) (st : ObjectStore)
    (d : Data) :
    WriteBlob H st d = .ok (HashContent H d,
      match lookupKey (H d) st with
      | some _ => st
      | none => (H d, d) :: st) := by
  unfold WriteBlob
  dsimp only
  rw [blobPath_hashContent H hg d]
  show (match lookupKey (H d) st with
    | some _ => (Except.ok (HashContent H d, st) : Except BlobErr (Str × ObjectStore))
    | none => Except.ok (HashContent H d, (H d, d) :: st)) =
    Except.ok (HashContent H d, match lookupKey (H d) st with
      | some _ => st
      | none => (H d, d) :: st)
  cases lookupKey (H d) st with
  | none => rfl
  | some v => rfl

theorem writeBlob_props (H : Data → Str) (hg : hashGood H) (st : ObjectStore)
    (d : Data) (D : List Data) (hdD : d ∈ D)
    (hcons : storeConsistent H st) (hsub : ∀ q ∈ st, q.2 ∈ D) :
    ∃ st', WriteBlob H st d = .ok (HashContent H d, st') ∧
      storeConsistent H st' ∧ (∀ q ∈ st', q.2 ∈ D) ∧
      (injOnData H D → lookupKey (H d) st' = some d) := by
  rw [writeBlob_to_store H hg st d]
  cases hlk : lookupKey (H d) st with
  | none =>
    refine ⟨(H d, d) :: st, rfl, ?_, ?_, ?_⟩
    · intro q hq
      rcases List.mem_cons.mp hq with h | h
      · rw [h]
      · exact hcons q h
    · intro q hq
      rcases List.mem_cons.mp hq with h | h
      · rw [h]; exact hdD
      · exact hsub q h
    · intro _
      simp [lookupKey]
  | some v =>
    refine ⟨st, rfl, hcons, hsub, ?_⟩
    intro hinj
    have hmem := lookupKey_mem (H d) v st hlk
    have hv : H v = H d := hcons (H d, v) hmem
    have : v = d := hinj v (hsub (H d, v) hmem) d hdD hv
    rw [hlk, this]

theorem writePrompts_ok (H : Data → Str) (hg : hashGood H) (D : List Data) :
    ∀ (ps : List LogPrompt) (st : ObjectStore),
      (∀ p ∈ ps, Data.bytes p.content ∈ D) →
      storeConsistent H st → (∀ q ∈ st, q.2 ∈ D) →
      ∃ st', writePrompts H st ps = .ok (ps.map (fun p =>
          ({ role := p.role,
             contentRef := HashContent H (.bytes p.content) } : Prompt)), st') ∧
        storeConsistent H st' ∧ (∀ q ∈ st', q.2 ∈ D) := by
  intro ps
  induction ps with
  | nil => intro st _ hc hsb; exact ⟨st, rfl, hc, hsb⟩
  | cons p t ih =>
    intro st hin hc hsb
    obtain ⟨st1, hw, hc1, hs1, _⟩ := writeBlob_props H hg st (.bytes p.content) D
      (hin p (List.mem_cons_self p t)) hc hsb
    obtain ⟨st2, hw2, hc2, hs2⟩ :=
      ih st1 (fun x hx => hin x (List.mem_cons_of_mem p hx)) hc1 hs1
    refine ⟨st2, ?_, hc2, hs2⟩
    simp only [writePrompts, List.map_cons]
    rw [hw]
    show (writePrompts H st1 t).bind _ = _
    rw [hw2]
    rfl

theorem writeInputs_ok (H : Data → Str) (hg : hashGood H) (D : List Data) :
    ∀ (is' : List LogInput) (st : ObjectStore),
      (∀ i ∈ is', Data.bytes i.content ∈ D) →
      storeConsistent H st → (∀ q ∈ st, q.2 ∈ D) →
      ∃ st', writeInputs H st is' = .ok (is'.map (fun i =>
          ({ name := i.name, contentRef := HashContent H (.bytes i.content),
             size := (i.content.length : Int) } : Input)), st') ∧
        storeConsistent H st' ∧ (∀ q ∈ st', q.2 ∈ D) := by
  intro is'
  induction is' with
  | nil => intro st _ hc hsb; exact ⟨st, rfl, hc, hsb⟩
  | cons i t ih =>
    intro st hin hc hsb
    obtain ⟨st1, hw, hc1, hs1, _⟩ := writeBlob_props H hg st (.bytes i.content) D
      (hin i (List.mem_cons_self i t)) hc hsb
    obtain ⟨st2, hw2, hc2, hs2⟩ :=
      ih st1 (fun x hx => hin x (List.mem_cons_of_mem i hx)) hc1 hs1
    refine ⟨st2, ?_, hc2, hs2⟩
    simp only [writeInputs, List.map_cons]
    rw [hw]
    show (writeInputs H st1 t).bind _ = _
    rw [hw2]
    rfl

theorem writeSteps_ok (H : Data → Str) (hg : hashGood H) (D : List Data) :
    ∀ (ss : List LogStep) (st : ObjectStore),
      (∀ s ∈ ss, s.output = [] ∨ Data.bytes s.output ∈ D) →
      storeConsistent H st → (∀ q ∈ st, q.2 ∈ D) →
      ∃ st', writeSteps H st ss = .ok (ss.map (fun s =>
          ({ index := s.index, type := s.type, tool := s.tool,
             parameters := s.parameters,
             outputRef := if s.output = [] then []
               else HashContent H (.bytes s.output),
             deterministic := s.deterministic,
             timestamp := s.timestamp } : Step)), st') ∧
        storeConsistent H st' ∧ (∀ q ∈ st', q.2 ∈ D) := by
  intro ss
  induction ss with
  | nil => intro st _ hc hsb; exact ⟨st, rfl, hc, hsb⟩
  | cons s t ih =>
    intro st hin hc hsb
    by_cases hso : s.output = []
    · obtain ⟨st2, hw2, hc2, hs2⟩ :=
        ih st (fun x hx => hin x (List.mem_cons_of_mem s hx)) hc hsb
      refine ⟨st2, ?_, hc2, hs2⟩
      simp only [writeSteps, List.map_cons]
      rw [if_pos hso, if_pos hso]
      show (writeSteps H st t).bind _ = _
      rw [hw2]
      rfl
    · have hmem : Data.bytes s.output ∈ D := by
        rcases hin s (List.mem_cons_self s t) with h | h
        · exact absurd h hso
        · exact h
      obtain ⟨st1, hw, hc1, hs1, _⟩ :=
        writeBlob_props H hg st (.bytes s.output) D hmem hc hsb
      obtain ⟨st2, hw2, hc2, hs2⟩ :=
        ih st1 (fun x hx => hin x (List.mem_cons_of_mem s hx)) hc1 hs1
      refine ⟨st2, ?_, hc2, hs2⟩
      simp only [writeSteps, List.map_cons]
      rw [if_neg hso, if_neg hso, hw]
      show (writeSteps H st1 t).bind _ = _
      rw [hw2]
      rfl

theorem writeOutputs_ok (H : Data → Str) (hg : hashGood H) (D : List Data) :
    ∀ (os : List LogOutput) (st : ObjectStore),
      (∀ o ∈ os, Data.bytes o.content ∈ D) →
      storeConsistent H st → (∀ q ∈ st, q.2 ∈ D) →
      ∃ st', writeOutputs H st os = .ok (os.map (fun o =>
          ({ name := o.name, contentRef := HashContent H (.bytes o.content),
             contextPack := [] } : Output)), st') ∧
        storeConsistent H st' ∧ (∀ q ∈ st', q.2 ∈ D) := by
  intro os
  induction os with
  | nil => intro st _ hc hsb; exact ⟨st, rfl, hc, hsb⟩
  | cons o t ih =>
    intro st hin hc hsb
    obtain ⟨st1, hw, hc1, hs1, _⟩ := writeBlob_props H hg st (.bytes o.content) D
      (hin o (List.mem_cons_self o t)) hc hsb
    obtain ⟨st2, hw2, hc2, hs2⟩ :=
      ih st1 (fun x hx => hin x (List.mem_cons_of_mem o hx)) hc1 hs1
    refine ⟨st2, ?_, hc2, hs2⟩
    simp only [writeOutputs, List.map_cons]
    rw [hw]
    show (writeOutputs H st1 t).bind _ = _
    rw [hw2]
    rfl

theorem validateHash_hashContent (H : Data → Str) (hg : hashGood H) (d : Data) :
    ValidateHash (HashContent H d) = true := by
  unfold ValidateHash
  rw [parseHash_hashContent H hg d]
  rfl

theorem resolveHash_hashContent (H : Data → Str) (hg : hashGood H)
    (packs : List Str) (d : Data) :
    ResolveHash packs (HashContent H d) = .ok (HashContent H d) := by
  have hstrip : stripCtxScheme (HashContent H d) = HashContent H d := rfl
  have hnorm : NormalizeHash (HashContent H d) = .ok (HashContent H d) := by
    unfold NormalizeHash
    rw [if_pos (by exact isPrefixOf_append_self hashScheme (H d))]
    rw [if_pos (validateHash_hashContent H hg d)]
  unfold ResolveHash
  dsimp only
  rw [hstrip, hnorm]

theorem bind_ok_split {γ α β δ : Type} (a : α) (b : β)
    (f : α × β → Except γ δ) :
    Bind.bind (Except.ok (a, b)) f = f (a, b) := rfl

/-- Claim C1 as amended: for every hash function of the right shape that is
collision-free on the touched blobs, every execution log whose embedded maps
are canonically represented, and every consistent starting store, `CreatePack`
succeeds with a pack `P`, and loading `P.hash` from the resulting store yields
`P` in every field of every prompt, input, step, model, environment and output
except each output's `context_pack` back-reference, which is empty in the
loaded manifest (the manifest blob is hashed and stored before the
back-references are set); when the log has no outputs the load returns `P`
exactly.  The original claim's "including every field of every output" is
false. -/
theorem C1_create_load_amended (H : Data → Str) (st0 : ObjectStore)
    (log : ExecutionLog) (now : Str) (packs : List Str) (hg : hashGood H)
    (hcons : storeConsistent H st0)
    (hinj : injOnData H (st0.map Prod.snd ++ writtenData H log now))
    (hmaps : logMapsCanonical log) :
    ∃ P st, CreatePack H st0 log now = .ok (P, st) ∧
      LoadPack H st packs P.hash = .ok (clearContextPacks P) ∧
      (log.outputs = [] → LoadPack H st packs P.hash = .ok P) := by
  have hsub0 : ∀ q ∈ st0, q.2 ∈ st0.map Prod.snd ++ writtenData H log now :=
    fun q hq => List.mem_append.mpr (Or.inl (List.mem_map.mpr ⟨q, hq, rfl⟩))
  have hmemSys : Data.bytes log.systemPrompt ∈
      st0.map Prod.snd ++ writtenData H log now := by
    refine List.mem_append.mpr (Or.inr ?_)
    unfold writtenData
    exact List.mem_cons_self _ _
  have hmemP : ∀ p ∈ log.prompts, Data.bytes p.content ∈
      st0.map Prod.snd ++ writtenData H log now := by
    intro p hp
    refine List.mem_append.mpr (Or.inr ?_)
    unfold writtenData
    refine List.mem_cons_of_mem _ ?_
    exact List.mem_append.mpr (Or.inl (List.mem_append.mpr (Or.inl
      (List.mem_append.mpr (Or.inl (List.mem_append.mpr (Or.inl
        (List.mem_map.mpr ⟨p, hp, rfl⟩))))))))
  have hmemI : ∀ i ∈ log.inputs, Data.bytes i.content ∈
      st0.map Prod.snd ++ writtenData H log now := by
    intro i hi
    refine List.mem_append.mpr (Or.inr ?_)
    unfold writtenData
    refine List.mem_cons_of_mem _ ?_
    exact List.mem_append.mpr (Or.inl (List.mem_append.mpr (Or.inl
      (List.mem_append.mpr (Or.inl (List.mem_append.mpr (Or.inr
        (List.mem_map.mpr ⟨i, hi, rfl⟩))))))))
  have hmemS : ∀ s ∈ log.steps, s.output = [] ∨ Data.bytes s.output ∈
      st0.map Prod.snd ++ writtenData H log now := by
    intro s hsm
    by_cases hso : s.output = []
    · exact Or.inl hso
    · refine Or.inr (List.mem_append.mpr (Or.inr ?_))
      unfold writtenData
      refine List.mem_cons_of_mem _ ?_
      exact List.mem_append.mpr (Or.inl (List.mem_append.mpr (Or.inl
        (List.mem_append.mpr (Or.inr
          (List.mem_filterMap.mpr ⟨s, hsm, by rw [if_neg hso]⟩))))))
  have hmemO : ∀ o ∈ log.outputs, Data.bytes o.content ∈
      st0.map Prod.snd ++ writtenData H log now := by
    intro o ho
    refine List.mem_append.mpr (Or.inr ?_)
    unfold writtenData
    refine List.mem_cons_of_mem _ ?_
    exact List.mem_append.mpr (Or.inl (List.mem_append.mpr (Or.inr
      (List.mem_map.mpr ⟨o, ho, rfl⟩))))
  have hmemM : Data.json (canonicalJSON (packOfLog H log now)) ∈
      st0.map Prod.snd ++ writtenData H log now := by
    refine List.mem_append.mpr (Or.inr ?_)
    unfold writtenData
    refine List.mem_cons_of_mem _ ?_
    exact List.mem_append.mpr (Or.inr (List.mem_singleton.mpr rfl))
  obtain ⟨st1, hw1, hc1, hs1, _⟩ := writeBlob_props H hg st0
    (.bytes log.systemPrompt) _ hmemSys hcons hsub0
  obtain ⟨st2, hw2, hc2, hs2⟩ := writePrompts_ok H hg _ log.prompts st1
    hmemP hc1 hs1
  obtain ⟨st3, hw3, hc3, hs3⟩ := writeInputs_ok H hg _ log.inputs st2
    hmemI hc2 hs2
  obtain ⟨st4, hw4, hc4, hs4⟩ := writeSteps_ok H hg _ log.steps st3
    hmemS hc3 hs3
  obtain ⟨st5, hw5, hc5, hs5⟩ := writeOutputs_ok H hg _ log.outputs st4
    hmemO hc4 hs4
  obtain ⟨st6, hw6, hc6, hs6, hlook⟩ := writeBlob_props H hg st5
    (.json (canonicalJSON (packOfLog H log now))) _ hmemM hc5 hs5
  have hlookup : lookupKey (H (.json (canonicalJSON (packOfLog H log now)))) st6 =
      some (.json (canonicalJSON (packOfLog H log now))) := hlook hinj
  have hpl : packOfLog H log now =
      { version := ks "0.1", hash := [], created := now,
        model := { identifier := log.model.identifier,
                   parameters := log.model.parameters },
        systemPrompt := HashContent H (.bytes log.systemPrompt),
        prompts := log.prompts.map (fun p =>
          { role := p.role, contentRef := HashContent H (.bytes p.content) }),
        inputs := log.inputs.map (fun i =>
          { name := i.name, contentRef := HashContent H (.bytes i.content),
            size := (i.content.length : Int) }),
        steps := log.steps.map (fun s =>
          { index := s.index, type := s.type, tool := s.tool,
            parameters := s.parameters,
            outputRef := if s.output = [] then []
              else HashContent H (.bytes s.output),
            deterministic := s.deterministic, timestamp := s.timestamp }),
        outputs := log.outputs.map (fun o =>
          { name := o.name, contentRef := HashContent H (.bytes o.content),
            contextPack := [] }),
        environment := { os := log.environment.os,
                         runtime := log.environment.runtime,
                         toolVersions := log.environment.toolVersions },
        parent := [] } := rfl
  have hcreate : CreatePack H st0 log now = .ok
      ({ packOfLog H log now with
          hash := HashContent H (.json (canonicalJSON (packOfLog H log now))),
          outputs := (packOfLog H log now).outputs.map (fun o =>
            { o with contextPack :=
                HashContent H (.json (canonicalJSON (packOfLog H log now))) }) },
        st6) := by
    unfold CreatePack
    rw [hw1, bind_ok_split]
    dsimp only
    rw [hw2, bind_ok_split]
    dsimp only
    rw [hw3, bind_ok_split]
    dsimp only
    rw [hw4, bind_ok_split]
    dsimp only
    rw [hw5, bind_ok_split]
    dsimp only
    rw [← hpl]
    rw [hw6, bind_ok_split]
    dsimp only
    rfl
  have hread : ReadBlob H st6
      (HashContent H (.json (canonicalJSON (packOfLog H log now)))) =
      .ok (.json (canonicalJSON (packOfLog H log now))) := by
    unfold ReadBlob
    rw [blobPath_hashContent H hg]
    dsimp only
    rw [hlookup]
    dsimp only
    rw [if_neg (not_not_intro rfl)]
  have hparse : jsonToPack (canonicalJSON (packOfLog H log now)) =
      some (packOfLog H log now) := by
    rw [show canonicalJSON (packOfLog H log now) =
      sortKeysJ (packToJson (packOfLog H log now)) from rfl]
    refine jsonToPack_roundtrip (packOfLog H log now) hmaps.1 hmaps.2.1 ?_
      hmaps.2.2.2
    intro s hsm
    obtain ⟨s0, hs0, rfl⟩ := List.mem_map.mp hsm
    exact hmaps.2.2.1 s0 hs0
  have hload : LoadPack H st6 packs
      (HashContent H (.json (canonicalJSON (packOfLog H log now)))) =
      .ok { packOfLog H log now with
        hash := HashContent H (.json (canonicalJSON (packOfLog H log now))) } := by
    unfold LoadPack
    rw [resolveHash_hashContent H hg packs]
    dsimp only
    rw [hread]
    dsimp only
    rw [hparse]
  refine ⟨{ packOfLog H log now with
      hash := HashContent H (.json (canonicalJSON (packOfLog H log now))),
      outputs := (packOfLog H log now).outputs.map (fun o =>
        { o with contextPack :=
            HashContent H (.json (canonicalJSON (packOfLog H log now))) }) },
    st6, hcreate, ?_, ?_⟩
  · have houts : List.map (fun o => { o with contextPack := ([] : Str) })
        ((packOfLog H log now).outputs.map (fun o =>
          { o with contextPack :=
              HashContent H (.json (canonicalJSON (packOfLog H log now))) })) =
        (packOfLog H log now).outputs := by
      show List.map (fun o => { o with contextPack := ([] : Str) })
        (List.map (fun o =>
          { o with contextPack :=
              HashContent H (.json (canonicalJSON (packOfLog H log now))) })
          (List.map (fun o =>
            ({ name := o.name, contentRef := HashContent H (.bytes o.content),
               contextPack := [] } : Output)) log.outputs)) =
        List.map (fun o =>
          ({ name := o.name, contentRef := HashContent H (.bytes o.content),
             contextPack := [] } : Output)) log.outputs
      rw [List.map_map, List.map_map]
      rfl
    have hclear : clearContextPacks { packOfLog H log now with
        hash := HashContent H (.json (canonicalJSON (packOfLog H log now))),
        outputs := (packOfLog H log now).outputs.map (fun o =>
          { o with contextPack :=
              HashContent H (.json (canonicalJSON (packOfLog H log now))) }) } =
        { packOfLog H log now with
          hash := HashContent H (.json (canonicalJSON (packOfLog H log now))) } := by
      unfold clearContextPacks
      dsimp only
      rw [houts]
    rw [hclear]
    exact hload
  · intro h0
    have h1 : (packOfLog H log now).outputs = [] := by
      rw [show (packOfLog H log now).outputs = List.map (fun o =>
        ({ name := o.name, contentRef := HashContent H (.bytes o.content),
           contextPack := [] } : Output)) log.outputs from rfl, h0]
      rfl
    show LoadPack H st6 packs _ = _
    rw [hload]
    refine congrArg Except.ok ?_
    dsimp only
    rw [h1]
    rfl

theorem cabH_good : hashGood cabH := by
  have ha : (List.replicate 64 'a').length = 64 ∧
      (List.replicate 64 'a').all isHexDigitChar = true := by decide
  have hb : (List.replicate 64 'b').length = 64 ∧
      (List.replicate 64 'b').all isHexDigitChar = true := by decide
  have hc : (List.replicate 64 'c').length = 64 ∧
      (List.replicate 64 'c').all isHexDigitChar = true := by decide
  intro d
  cases d with
  | bytes s =>
    show (if s = ks "xyz" then List.replicate 64 'a'
      else List.replicate 64 'b').length = 64 ∧
      (if s = ks "xyz" then List.replicate 64 'a'
        else List.replicate 64 'b').all isHexDigitChar = true
    by_cases hx : s = ks "xyz"
    · rw [if_pos hx]; exact ha
    · rw [if_neg hx]; exact hb
  | json j => exact hc

theorem c1_inj : injOnData cabH
    (List.map Prod.snd ([] : ObjectStore) ++ writtenData cabH c1Log (ks "t")) := by
  intro d1 h1 d2 h2 heq
  have h1' : d1 = Data.bytes (ks "xyz") ∨ d1 = Data.bytes (ks "oc") ∨
      d1 = Data.json (canonicalJSON (packOfLog cabH c1Log (ks "t"))) := by
    simpa [writtenData, c1Log] using h1
  have h2' : d2 = Data.bytes (ks "xyz") ∨ d2 = Data.bytes (ks "oc") ∨
      d2 = Data.json (canonicalJSON (packOfLog cabH c1Log (ks "t"))) := by
    simpa [writtenData, c1Log] using h2
  rcases h1' with rfl | rfl | rfl <;> rcases h2' with rfl | rfl | rfl <;>
    first
    | rfl
    | exact absurd heq (by decide)

/-- Claim C1 counterexample: for the one-output log `c1Log`, `CreatePack`
succeeds with a pack `P` whose output carries the `context_pack`
back-reference, but loading `P.hash` from the resulting store returns a
manifest whose outputs differ from `P`'s — the stored manifest was hashed
before the back-references were set, so the loaded output's `context_pack` is
empty. -/
theorem C1_counterexample :
    ∃ P st q, CreatePack cabH [] c1Log (ks "t") = .ok (P, st) ∧
      LoadPack cabH st [] P.hash = .ok q ∧ q.outputs ≠ P.outputs := by
  refine ⟨_, _, _, rfl, rfl, ?_⟩
  decide

/-- Witness for the amended C1 at the concrete digest `cabH` and one-output
log `c1Log`. -/
theorem C1_witness :
    ∃ P st, CreatePack cabH [] c1Log (ks "t") = .ok (P, st) ∧
      LoadPack cabH st [] P.hash = .ok (clearContextPacks P) ∧
      (c1Log.outputs = [] → LoadPack cabH st [] P.hash = .ok P) :=
  C1_create_load_amended cabH [] c1Log (ks "t") [] cabH_good
    (fun q hq => absurd hq (List.not_mem_nil q)) c1_inj
    ⟨by decide, by decide, fun s hs => absurd hs (List.not_mem_nil s), by decide⟩
